import Mathlib

/-!
Verification development for the adjacency-list graph engine of
`src/graph/src/graph_adj.h` (classes `GraphAdj` and `UdGraphAdj`,
plus the free function `graph::reverseGraph`).

Shallow embedding notes.

* The C++ code stores vertices in a `std::vector<GraphAdjVertex<T>>`
  together with a hash table `hash_ : T -> index`.  Vertices are only
  ever appended (in `addEdge`), and only when the hash lookup fails, so
  vertex values are pairwise distinct and the hash always points at the
  unique vertex with a given value.  We therefore model the store as a
  `List (GraphAdjVertex T)` and model `getVtx` as first-match search;
  for the states reachable through the API the two agree exactly.
* The singly linked `Edge` list of a vertex is modelled as `List (Edge T)`.
* C++ `int` weights are modelled as `Int` and the `double` distance as
  `Rat` (the code never performs arithmetic on distances: it only stores
  literals and copies them, so any exact numeric type is faithful).
* Abnormal termination is made explicit: a failed `assert` becomes
  `CError.assertFail`, dereferencing a null pointer becomes
  `CError.nullDeref`, and the `std::invalid_argument` thrown by
  `UdGraphAdj::isConnected` becomes `CError.invalidArgument`.
  Fallible operations return `Except CError`.
-/

/-- Abnormal outcomes of the C++ code: a failed `assert`, a null-pointer
dereference (undefined behaviour in C++), and the `std::invalid_argument`
exception thrown for partially connected undirected pairs. -/
inductive CError where
  | assertFail
  | nullDeref
  | invalidArgument
deriving DecidableEq, Repr

deriving instance DecidableEq for Except

/-- `graph::Edge<T>`: one node of a vertex's linked edge list.  `value` is
the head vertex of the edge; the `next` pointer is represented by the tail
of the enclosing `List`. -/
structure Edge (T : Type) where
  value : T
  weight : Int
  distance : Rat
deriving DecidableEq, Repr

/-- `graph::GraphAdjVertex<T>`: a vertex together with its visited flag and
the head of its linked edge list. -/
structure GraphAdjVertex (T : Type) where
  value : T
  visited : Bool
  next : List (Edge T)
deriving DecidableEq, Repr

/-- The state of a `GraphAdj<T>` object: the vector `vertices_`.
The companion `hash_` map is not stored separately; see the header
comment. -/
structure GraphAdj (T : Type) where
  vertices_ : List (GraphAdjVertex T)
deriving DecidableEq, Repr

namespace GraphAdj

variable {T : Type} [LinearOrder T]

/-- The empty graph produced by the `GraphAdj()` constructor. -/
def emptyG : GraphAdj T := ⟨[]⟩

/-- `getVtx` / `getVertex`: look a vertex up by value (first match; the
C++ hash points at the unique matching vertex). -/
def findVtx (t : T) : List (GraphAdjVertex T) → Option (GraphAdjVertex T)
  | [] => none
  | v :: rest => if v.value = t then some v else findVtx t rest

/-- Apply `f` to the vertex with value `t` (the one `getVtx` returns);
no-op when the vertex is absent. -/
def updateVtxFirst (t : T) (f : GraphAdjVertex T → GraphAdjVertex T) :
    List (GraphAdjVertex T) → List (GraphAdjVertex T)
  | [] => []
  | v :: rest =>
    if v.value = t then f v :: rest else v :: updateVtxFirst t f rest

/-- The vertex-creation prologue of `addEdge`: if no vertex with value `t`
exists, push a fresh unvisited vertex with an empty list to the back of
the vector (`newGraphAdjVertex` + `push_back` + hash insert). -/
def ensureVtx (g : GraphAdj T) (t : T) : GraphAdj T :=
  match findVtx t g.vertices_ with
  | some _ => g
  | none => ⟨g.vertices_ ++ [⟨t, false, []⟩]⟩

/-- The sorted-insert-with-merge loop of `addEdge` on one edge list:
if a node with value `head` exists its weight is increased (the new
node's distance is discarded), otherwise a new node is spliced in,
keeping the list in ascending order of `value`. -/
def insertEdgeAux (head : T) (w : Int) (d : Rat) :
    List (Edge T) → List (Edge T)
  | [] => [⟨head, w, d⟩]
  | e :: rest =>
    if e.value = head then { e with weight := e.weight + w } :: rest
    else if head < e.value then ⟨head, w, d⟩ :: e :: rest
    else e :: insertEdgeAux head w d rest

/-- The unlink loop of `delEdge` on one edge list: remove the first node
with value `head`, returning its weight, or `0` and the unchanged list
when no node matches. -/
def delEdgeAux (head : T) : List (Edge T) → Int × List (Edge T)
  | [] => (0, [])
  | e :: rest =>
    if e.value = head then (e.weight, rest)
    else
      let p := delEdgeAux head rest
      (p.1, e :: p.2)

/-- Scan one edge list for the first node with value `head` and return
its weight and distance (used to state what `delEdge` returns and what
the graph contains). -/
def findEdge (head : T) : List (Edge T) → Option (Int × Rat)
  | [] => none
  | e :: rest =>
    if e.value = head then some (e.weight, e.distance) else findEdge head rest

/-- The edge list of the vertex with value `t` (empty when absent). -/
def getList (g : GraphAdj T) (t : T) : List (Edge T) :=
  match findVtx t g.vertices_ with
  | some v => v.next
  | none => []

/-- Weight and distance of the edge `tail -> head`, when present. -/
def edgeOf (g : GraphAdj T) (tail head : T) : Option (Int × Rat) :=
  findEdge head (getList g tail)

/-- Weight of the edge `tail -> head`, zero when absent. -/
def edgeWeight (g : GraphAdj T) (tail head : T) : Int :=
  match edgeOf g tail head with
  | some p => p.1
  | none => 0

/-- Whether some node with value `head` occurs in `tail`'s edge list. -/
def hasEdge (g : GraphAdj T) (tail head : T) : Bool :=
  (getList g tail).any (fun e => e.value = head)

/-- Sum of the weights in one edge list. -/
def listWeight (l : List (Edge T)) : Int :=
  (l.map (fun e => e.weight)).sum

/-- The total weight summed over all lists: exactly the loop of
`GraphAdj::countEdge` / `UdGraphAdj::countEdge`. -/
def rawCount (g : GraphAdj T) : Int :=
  (g.vertices_.map (fun v => listWeight v.next)).sum

/-- `GraphAdj::addEdge(tail, head, weight, distance)`.  Asserts
`tail != head`, creates missing endpoint vertices, then performs the
sorted insert-or-merge on `tail`'s list. -/
def addEdge (g : GraphAdj T) (tail head : T) (w : Int) (d : Rat) :
    Except CError (GraphAdj T) :=
  if tail = head then .error .assertFail
  else
    let g2 := ensureVtx (ensureVtx g tail) head
    .ok ⟨updateVtxFirst tail
      (fun v => { v with next := insertEdgeAux head w d v.next }) g2.vertices_⟩

/-- `GraphAdj::delEdge(tail, head)`.  Asserts `tail != head`; returns 0
when the tail vertex is absent; dereferences the list head
unconditionally, so an existing vertex with an empty list is a
null-pointer dereference; otherwise unlinks the first matching node and
returns its weight (0 and no change when none matches). -/
def delEdge (g : GraphAdj T) (tail head : T) :
    Except CError (Int × GraphAdj T) :=
  if tail = head then .error .assertFail
  else
    match findVtx tail g.vertices_ with
    | none => .ok (0, g)
    | some v =>
      match v.next with
      | [] => .error .nullDeref
      | _ =>
        let p := delEdgeAux head v.next
        .ok (p.1, ⟨updateVtxFirst tail (fun u => { u with next := p.2 })
          g.vertices_⟩)

/-- `GraphAdj::clearList(value)`: dereferences `getVtx(value)` (null when
the vertex is absent) and frees the whole list. -/
def clearListE (g : GraphAdj T) (t : T) : Except CError (GraphAdj T) :=
  match findVtx t g.vertices_ with
  | none => .error .nullDeref
  | some _ => .ok ⟨updateVtxFirst t (fun u => { u with next := [] }) g.vertices_⟩

/-- `GraphAdj::isConnected`: false when the tail vertex is absent, true
for identical values, otherwise a scan of `tail`'s list. -/
def isConnected (g : GraphAdj T) (tail head : T) : Bool :=
  match findVtx tail g.vertices_ with
  | none => false
  | some v =>
    if tail = head then true
    else v.next.any (fun e => e.value = head)

/-- `GraphAdj::connect`: refuse (return `false`) when already connected,
otherwise add one directed edge. -/
def connect (g : GraphAdj T) (tail head : T) (w : Int := 1) (d : Rat := 1) :
    Except CError (Bool × GraphAdj T) :=
  if isConnected g tail head then .ok (false, g)
  else
    match addEdge g tail head w d with
    | .error e => .error e
    | .ok g' => .ok (true, g')

/-- `GraphAdj::disconnect`: forwards to `delEdge`. -/
def disconnect (g : GraphAdj T) (tail head : T) :
    Except CError (Int × GraphAdj T) :=
  delEdge g tail head

/-- `GraphAdj::collapse` on the directed base class is declared
`virtual void collapse(T src, T dst) {};` — an empty body that leaves
the graph unchanged. -/
def collapse (g : GraphAdj T) (_src _dst : T) : GraphAdj T := g

/-- `GraphAdj::countEdge`: the raw weight sum (no assertion, no halving). -/
def countEdge (g : GraphAdj T) : Int := rawCount g

/-- `GraphAdj::reset`: clear every visited flag. -/
def resetAll (g : GraphAdj T) : GraphAdj T :=
  ⟨g.vertices_.map (fun v => { v with visited := false })⟩

/-- Set the visited flag of the vertex with value `t` (the C++ code does
this through a pointer it already holds, so no lookup failure is
possible at these sites). -/
def setFlag (g : GraphAdj T) (t : T) : GraphAdj T :=
  ⟨updateVtxFirst t (fun v => { v with visited := true }) g.vertices_⟩

/-- Mark a vertex visited after a fresh `getVtx` lookup, as the bottom of
the DFS loop does; dereferencing the result of a failed lookup is a
null-pointer dereference. -/
def markVisited (g : GraphAdj T) (t : T) : Except CError (GraphAdj T) :=
  match findVtx t g.vertices_ with
  | none => .error .nullDeref
  | some _ => .ok (setFlag g t)

/-- Number of entries whose visited flag is clear (the traversal
termination measure). -/
def unvisitedCountL : List (GraphAdjVertex T) → Nat
  | [] => 0
  | v :: rest => (if v.visited then 0 else 1) + unvisitedCountL rest

/-- Number of vertices whose visited flag is clear. -/
def unvisitedCount (g : GraphAdj T) : Nat :=
  unvisitedCountL g.vertices_

theorem unvisitedCountL_update_le (t : T) (vs : List (GraphAdjVertex T)) :
    unvisitedCountL
        (updateVtxFirst t (fun u => { u with visited := true }) vs) ≤
      unvisitedCountL vs := by
  induction vs with
  | nil => simp [updateVtxFirst, unvisitedCountL]
  | cons v rest ih =>
    by_cases hv : v.value = t
    · simp only [updateVtxFirst, if_pos hv, unvisitedCountL]
      cases hb : v.visited <;> simp
    · simp only [updateVtxFirst, if_neg hv, unvisitedCountL]
      omega

theorem unvisited_setFlag_le (g : GraphAdj T) (t : T) :
    unvisitedCount (setFlag g t) ≤ unvisitedCount g :=
  unvisitedCountL_update_le t g.vertices_

theorem unvisitedCountL_update_eq (t : T) (vs : List (GraphAdjVertex T))
    {v : GraphAdjVertex T} (hfind : findVtx t vs = some v)
    (hunv : v.visited = false) :
    unvisitedCountL
        (updateVtxFirst t (fun u => { u with visited := true }) vs) + 1 =
      unvisitedCountL vs := by
  induction vs with
  | nil => simp [findVtx] at hfind
  | cons u rest ih =>
    by_cases hu : u.value = t
    · simp only [findVtx, if_pos hu, Option.some.injEq] at hfind
      subst hfind
      simp [updateVtxFirst, if_pos hu, unvisitedCountL, hunv]
      omega
    · simp only [findVtx, if_neg hu] at hfind
      simp only [updateVtxFirst, if_neg hu, unvisitedCountL]
      have := ih hfind
      omega

theorem unvisited_setFlag_eq (g : GraphAdj T) (t : T)
    {v : GraphAdjVertex T} (hfind : findVtx t g.vertices_ = some v)
    (hunv : v.visited = false) :
    unvisitedCount (setFlag g t) + 1 = unvisitedCount g :=
  unvisitedCountL_update_eq t g.vertices_ hfind hunv

theorem markVisited_ok {g g' : GraphAdj T} {t : T}
    (h : markVisited g t = .ok g') : g' = setFlag g t := by
  unfold markVisited at h
  cases hf : findVtx t g.vertices_ with
  | none =>
    rw [hf] at h
    exact Except.noConfusion h
  | some v =>
    simp only [hf] at h
    exact (Except.ok.inj h).symm

theorem markVisited_unvisited_le {g g' : GraphAdj T} {t : T}
    (h : markVisited g t = .ok g') :
    unvisitedCount g' ≤ unvisitedCount g := by
  rw [markVisited_ok h]
  exact unvisited_setFlag_le g t

/-- The inner loop of `breathFirstSearch` over the current vertex's edge
list: push every not-yet-visited neighbour onto the queue and the result
vector, marking it visited; looking up a value that is not a vertex
dereferences a null pointer. -/
def bfsChildren :
    GraphAdj T → List (Edge T) → List T → List T →
      Except CError (GraphAdj T × List T × List T)
  | g, [], track, vis => .ok (g, track, vis)
  | g, e :: rest, track, vis =>
    match findVtx e.value g.vertices_ with
    | none => .error .nullDeref
    | some nv =>
      if nv.visited then bfsChildren g rest track vis
      else
        bfsChildren (setFlag g e.value) rest (track ++ [e.value])
          (vis ++ [e.value])

theorem bfsChildren_measure {g g' : GraphAdj T} {l : List (Edge T)}
    {track vis track' vis' : List T}
    (h : bfsChildren g l track vis = .ok (g', track', vis')) :
    unvisitedCount g' + track'.length ≤ unvisitedCount g + track.length := by
  induction l generalizing g track vis with
  | nil =>
    simp only [bfsChildren, Except.ok.injEq, Prod.mk.injEq] at h
    obtain ⟨h1, h2, h3⟩ := h
    subst h1; subst h2
    omega
  | cons e rest ih =>
    simp only [bfsChildren] at h
    cases hf : findVtx e.value g.vertices_ with
    | none => simp [hf] at h
    | some nv =>
      simp only [hf] at h
      cases hv : nv.visited with
      | true =>
        rw [hv] at h
        simp only [if_pos rfl] at h
        exact ih h
      | false =>
        rw [hv] at h
        simp at h
        have h1 := ih h
        have h2 := unvisited_setFlag_eq g e.value hf hv
        simp only [List.length_append, List.length_cons, List.length_nil] at h1
        omega

/-- The queue-driven loop of `breathFirstSearch`.  Terminates because
each iteration pops one queue entry and every push marks a previously
unvisited vertex. -/
def bfsLoop (g : GraphAdj T) (track vis : List T) :
    Except CError (GraphAdj T × List T) :=
  match track with
  | [] => .ok (g, vis)
  | front :: rest =>
    match findVtx front g.vertices_ with
    | none => .error .nullDeref
    | some cv =>
      match h : bfsChildren g cv.next rest vis with
      | .error e => .error e
      | .ok (g', track', vis') => bfsLoop g' track' vis'
termination_by unvisitedCount g + track.length
decreasing_by
  have hm := bfsChildren_measure h
  simp only [List.length_cons]
  omega

/-- `GraphAdj::breathFirstSearch`: returns the vertices in discovery
order and (via `reset`) the graph with every visited flag cleared; an
unknown start value yields the empty sequence with no reset. -/
def breathFirstSearch (g : GraphAdj T) (value : T) :
    Except CError (List T × GraphAdj T) :=
  match findVtx value g.vertices_ with
  | none => .ok ([], g)
  | some _ =>
    match bfsLoop (setFlag g value) [value] [value] with
    | .error e => .error e
    | .ok (g', vis) => .ok (vis, resetAll g')

/-- The neighbour scan of `depthFirstSearch`: the first edge of the list
whose head vertex is unvisited (looking up a dangling value dereferences
a null pointer). -/
def findUnvisited (g : GraphAdj T) : List (Edge T) → Except CError (Option T)
  | [] => .ok none
  | e :: rest =>
    match findVtx e.value g.vertices_ with
    | none => .error .nullDeref
    | some nv =>
      if nv.visited then findUnvisited g rest else .ok (some e.value)

theorem findUnvisited_ok_some {g : GraphAdj T} {l : List (Edge T)} {x : T}
    (h : findUnvisited g l = .ok (some x)) :
    ∃ nv, findVtx x g.vertices_ = some nv ∧ nv.visited = false := by
  induction l with
  | nil => simp [findUnvisited] at h
  | cons e rest ih =>
    simp only [findUnvisited] at h
    cases hf : findVtx e.value g.vertices_ with
    | none => simp [hf] at h
    | some nv =>
      simp only [hf] at h
      cases hv : nv.visited with
      | true =>
        rw [hv] at h
        simp only [if_pos rfl] at h
        exact ih h
      | false =>
        rw [hv] at h
        simp only [Bool.false_eq_true, if_false, Except.ok.injEq,
          Option.some.injEq] at h
        subst h
        exact ⟨nv, hf, hv⟩

theorem dfs_push_measure {g g2 : GraphAdj T} {l : List (Edge T)} {x : T}
    (hf : findUnvisited g l = .ok (some x))
    (hm : markVisited (setFlag g x) x = .ok g2) :
    unvisitedCount g2 + 1 ≤ unvisitedCount g := by
  obtain ⟨nv, hfind, hunv⟩ := findUnvisited_ok_some hf
  have h1 := unvisited_setFlag_eq g x hfind hunv
  have h2 := markVisited_unvisited_le hm
  omega

/-- The explicit-stack loop of `depthFirstSearch`: descend to the first
unvisited neighbour of the stack top, marking it visited (once through
the scan's pointer, once through the fresh lookup at the bottom of the
loop); when none exists, append the top to the sink sequence and pop,
re-marking the new top through a fresh lookup. -/
def dfsLoop (g : GraphAdj T) (tracker sink : List T) :
    Except CError (GraphAdj T × List T) :=
  match tracker with
  | [] => .ok (g, sink)
  | top :: rest =>
    match findVtx top g.vertices_ with
    | none => .error .nullDeref
    | some v =>
      match hf : findUnvisited g v.next with
      | .error e => .error e
      | .ok (some nxt) =>
        match hm : markVisited (setFlag g nxt) nxt with
        | .error e => .error e
        | .ok g2 => dfsLoop g2 (nxt :: top :: rest) sink
      | .ok none =>
        match rest with
        | [] => .ok (g, sink ++ [top])
        | t2 :: r2 =>
          match hm2 : markVisited g t2 with
          | .error e => .error e
          | .ok g3 => dfsLoop g3 (t2 :: r2) (sink ++ [top])
termination_by 2 * unvisitedCount g + tracker.length
decreasing_by
  · have := dfs_push_measure hf hm
    simp only [List.length_cons]
    omega
  · have := markVisited_unvisited_le hm2
    simp only [List.length_cons]
    omega

/-- `GraphAdj::depthFirstSearch`: returns the sink vertices in finishing
order.  The trailing `reset()` in the source is commented out, so the
visited flags are left as the walk set them. -/
def depthFirstSearch (g : GraphAdj T) (value : T) :
    Except CError (List T × GraphAdj T) :=
  match findVtx value g.vertices_ with
  | none => .ok ([], g)
  | some _ =>
    match dfsLoop (setFlag g value) [value] [] with
    | .error e => .error e
    | .ok (g', sink) => .ok (sink, g')

end GraphAdj

namespace UdGraphAdj

open GraphAdj

variable {T : Type} [LinearOrder T]

/-- `UdGraphAdj::countEdge`: the raw weight sum over all lists, an
assertion that it is even, then integer halving. -/
def countEdge (g : GraphAdj T) : Except CError Int :=
  if rawCount g % 2 = 0 then .ok (rawCount g / 2) else .error .assertFail

/-- `UdGraphAdj::isConnected`: false when either vertex is absent, true
for identical values; otherwise both lists are scanned, and a pair found
on exactly one side throws `std::invalid_argument`. -/
def isConnected (g : GraphAdj T) (first second : T) : Except CError Bool :=
  match findVtx first g.vertices_, findVtx second g.vertices_ with
  | none, _ => .ok false
  | some _, none => .ok false
  | some v1, some v2 =>
    if first = second then .ok true
    else
      let c1 := v1.next.any (fun e => e.value = second)
      let c2 := v2.next.any (fun e => e.value = first)
      if c1 && c2 then .ok true
      else if c1 || c2 then .error .invalidArgument
      else .ok false

/-- `UdGraphAdj::connect`: asserts `first != second`, refuses when
already connected, otherwise adds the two mirror edges. -/
def connect (g : GraphAdj T) (first second : T) (w : Int := 1) (d : Rat := 1) :
    Except CError (Bool × GraphAdj T) :=
  if first = second then .error .assertFail
  else
    match isConnected g first second with
    | .error e => .error e
    | .ok true => .ok (false, g)
    | .ok false =>
      match addEdge g first second w d with
      | .error e => .error e
      | .ok g1 =>
        match addEdge g1 second first w d with
        | .error e => .error e
        | .ok g2 => .ok (true, g2)

/-- `UdGraphAdj::disconnect`: asserts `first != second`, removes both
mirror edges, and asserts that the two removed weights are equal. -/
def disconnect (g : GraphAdj T) (first second : T) :
    Except CError (Int × GraphAdj T) :=
  if first = second then .error .assertFail
  else
    match delEdge g first second with
    | .error e => .error e
    | .ok (w1, g1) =>
      match delEdge g1 second first with
      | .error e => .error e
      | .ok (w2, g2) =>
        if w1 = w2 then .ok (w1, g2) else .error .assertFail

/-- The loop of `UdGraphAdj::collapse` over `src`'s edge list: for each
node `src -> x` it removes `x -> src` (capturing its weight), re-inserts
`x -> dst` with that weight, and inserts `dst -> x` with the original
node's weight; distances are the literal `1`.  The loop walks the
original list, which none of these calls mutate on a non-error path
(each assertion forces the touched vertex values to differ from `src`). -/
def collapseLoop (src dst : T) :
    List (Edge T) → GraphAdj T → Except CError (GraphAdj T)
  | [], g => .ok g
  | e :: rest, g =>
    match delEdge g e.value src with
    | .error err => .error err
    | .ok (w, g1) =>
      match addEdge g1 e.value dst w 1 with
      | .error err => .error err
      | .ok g2 =>
        match addEdge g2 dst e.value e.weight 1 with
        | .error err => .error err
        | .ok g3 => collapseLoop src dst rest g3

/-- `UdGraphAdj::collapse(src, dst)`: assert `src != dst`, disconnect the
pair (discarding the would-be self-loop weight), reroute every remaining
neighbour of `src` to `dst`, then clear `src`'s list.  The read
`getVtx(src)->next` dereferences a null pointer when `src` is absent. -/
def collapse (g : GraphAdj T) (src dst : T) : Except CError (GraphAdj T) :=
  if src = dst then .error .assertFail
  else
    match disconnect g src dst with
    | .error e => .error e
    | .ok (_, g1) =>
      match findVtx src g1.vertices_ with
      | none => .error .nullDeref
      | some v =>
        match collapseLoop src dst v.next g1 with
        | .error e => .error e
        | .ok g2 => clearListE g2 src

end UdGraphAdj

namespace graph

open GraphAdj

variable {T : Type} [LinearOrder T]

/-- The inner loop of `graph::reverseGraph`: for each node `e` of the
list of the vertex with value `value`, call
`graph_reversed.connect(e.value, value)` with default weight `1` and
distance `1.0`. -/
def revLoopInner (value : T) :
    List (Edge T) → GraphAdj T → Except CError (GraphAdj T)
  | [], acc => .ok acc
  | e :: rest, acc =>
    match GraphAdj.connect acc e.value value 1 1 with
    | .error err => .error err
    | .ok (_, acc') => revLoopInner value rest acc'

/-- The outer loop of `graph::reverseGraph` over all vertices by index. -/
def revLoopOuter :
    List (GraphAdjVertex T) → GraphAdj T → Except CError (GraphAdj T)
  | [], acc => .ok acc
  | v :: rest, acc =>
    match revLoopInner v.value v.next acc with
    | .error err => .error err
    | .ok acc' => revLoopOuter rest acc'

/-- `graph::reverseGraph` (instantiated at the directed class): build a
fresh graph, and for every edge `a -> b` of the source call
`connect(b, a)` with default weight and distance. -/
def reverseGraph (g : GraphAdj T) : Except CError (GraphAdj T) :=
  revLoopOuter g.vertices_ emptyG

end graph

/-- One mutating call of the shared capability set, used to state
properties of arbitrary call sequences. -/
inductive GOp (T : Type) where
  | connect (a b : T) (w : Int) (d : Rat)
  | disconnect (a b : T)
  | collapse (a b : T)
deriving DecidableEq, Repr

namespace GOp

variable {T : Type} [LinearOrder T]

/-- Run one call against a directed `GraphAdj` object. -/
def runDirOp (g : GraphAdj T) : GOp T → Except CError (GraphAdj T)
  | .connect a b w d =>
    match GraphAdj.connect g a b w d with
    | .error e => .error e
    | .ok (_, g') => .ok g'
  | .disconnect a b =>
    match GraphAdj.disconnect g a b with
    | .error e => .error e
    | .ok (_, g') => .ok g'
  | .collapse a b => .ok (GraphAdj.collapse g a b)

/-- Run a sequence of calls against a directed graph. -/
def runDirOps : GraphAdj T → List (GOp T) → Except CError (GraphAdj T)
  | g, [] => .ok g
  | g, op :: rest =>
    match runDirOp g op with
    | .error e => .error e
    | .ok g' => runDirOps g' rest

/-- Run one call against an undirected `UdGraphAdj` object. -/
def runUdOp (g : GraphAdj T) : GOp T → Except CError (GraphAdj T)
  | .connect a b w d =>
    match UdGraphAdj.connect g a b w d with
    | .error e => .error e
    | .ok (_, g') => .ok g'
  | .disconnect a b =>
    match UdGraphAdj.disconnect g a b with
    | .error e => .error e
    | .ok (_, g') => .ok g'
  | .collapse a b => UdGraphAdj.collapse g a b

/-- Run a sequence of calls against an undirected graph. -/
def runUdOps : GraphAdj T → List (GOp T) → Except CError (GraphAdj T)
  | g, [] => .ok g
  | g, op :: rest =>
    match runUdOp g op with
    | .error e => .error e
    | .ok g' => runUdOps g' rest

end GOp

/-! ### Concrete instances used by claim theorems and witnesses -/

/-- The undirected triangle over keys 1, 2, 3 produced by `connect(1,2)`,
`connect(2,3)`, `connect(1,3)` with default weight and distance. -/
def triangleUd : GraphAdj Int :=
  ⟨[⟨1, false, [⟨2, 1, 1⟩, ⟨3, 1, 1⟩]⟩,
    ⟨2, false, [⟨1, 1, 1⟩, ⟨3, 1, 1⟩]⟩,
    ⟨3, false, [⟨1, 1, 1⟩, ⟨2, 1, 1⟩]⟩]⟩

/-- The state of `triangleUd` after `collapse(1, 2)`: vertex 1 isolated,
vertices 2 and 3 joined by a weight-2 edge. -/
def triangleUdCollapsed : GraphAdj Int :=
  ⟨[⟨1, false, []⟩, ⟨2, false, [⟨3, 2, 1⟩]⟩, ⟨3, false, [⟨2, 2, 1⟩]⟩]⟩

/-- The directed graph with edges 1->2, 2->3, 1->3 produced by three
default `connect` calls. -/
def dirTriangle : GraphAdj Int :=
  ⟨[⟨1, false, [⟨2, 1, 1⟩, ⟨3, 1, 1⟩]⟩,
    ⟨2, false, [⟨3, 1, 1⟩]⟩,
    ⟨3, false, []⟩]⟩

/-- The directed graph with the single edge 1->2 produced by one default
`connect(1, 2)` call. -/
def dirPair : GraphAdj Int :=
  ⟨[⟨1, false, [⟨2, 1, 1⟩]⟩, ⟨2, false, []⟩]⟩

/-- The directed graph with the single edge 1->2 of weight 2 produced by
`connect(1, 2, weight=2)`. -/
def dirPairW2 : GraphAdj Int :=
  ⟨[⟨1, false, [⟨2, 2, 1⟩]⟩, ⟨2, false, []⟩]⟩

/-- The state of `dirPair` after `depthFirstSearch(1)`: both visited
flags are left set because the trailing `reset()` is commented out. -/
def dirPairVisited : GraphAdj Int :=
  ⟨[⟨1, true, [⟨2, 1, 1⟩]⟩, ⟨2, true, []⟩]⟩

/-- A mixed call sequence used to witness the sortedness invariant. -/
def sortedOps : List (GOp Int) :=
  [.connect 1 3 1 1, .connect 1 2 1 1, .connect 1 4 1 1,
   .disconnect 1 3, .connect 2 3 1 1]

/-- The directed graph produced by `sortedOps`. -/
def sortedOpsResult : GraphAdj Int :=
  ⟨[⟨1, false, [⟨2, 1, 1⟩, ⟨4, 1, 1⟩]⟩, ⟨3, false, []⟩,
    ⟨2, false, [⟨3, 1, 1⟩]⟩, ⟨4, false, []⟩]⟩

/-! ### Invariant predicates -/

namespace GraphAdj

variable {T : Type} [LinearOrder T]

/-- Every vertex's edge list is strictly ascending by head value. -/
def SortedLists (g : GraphAdj T) : Prop :=
  ∀ v ∈ g.vertices_, ((v.next.map (fun e => e.value)).Pairwise (· < ·))

/-- Vertex values are pairwise distinct (the `hash_` invariant). -/
def NodupValues (g : GraphAdj T) : Prop :=
  (g.vertices_.map (fun v => v.value)).Nodup

/-- No vertex holds an edge to itself. -/
def NoSelfLoop (g : GraphAdj T) : Prop :=
  ∀ v ∈ g.vertices_, ∀ e ∈ v.next, e.value ≠ v.value

/-- Every edge carries the default weight 1 and distance 1.0 (the state
of any graph built purely from default `connect` calls). -/
def UnitEdges (g : GraphAdj T) : Prop :=
  ∀ v ∈ g.vertices_, ∀ e ∈ v.next, e.weight = 1 ∧ e.distance = 1

/-- The (tail, head) arguments of the `connect` calls that
`graph::reverseGraph` issues, in call order: for each vertex in index
order and each node of its list, the pair (node value, vertex value). -/
def revPairs : List (GraphAdjVertex T) → List (T × T)
  | [] => []
  | v :: rest => v.next.map (fun e => (e.value, v.value)) ++ revPairs rest

/-- Issue a sequence of directed default-weight `connect` calls. -/
def connectPairs : GraphAdj T → List (T × T) → Except CError (GraphAdj T)
  | g, [] => .ok g
  | g, p :: rest =>
    match connect g p.1 p.2 1 1 with
    | .error e => .error e
    | .ok q => connectPairs q.2 rest

end GraphAdj

/-! ### Edge-list level lemmas -/

namespace GraphAdj

variable {T : Type} [LinearOrder T]

theorem findVtx_sound {t : T} {vs : List (GraphAdjVertex T)}
    {v : GraphAdjVertex T} (h : findVtx t vs = some v) : v.value = t := by
  induction vs with
  | nil => simp [findVtx] at h
  | cons u rest ih =>
    by_cases hu : u.value = t
    · simp only [findVtx, if_pos hu, Option.some.injEq] at h
      subst h; exact hu
    · simp only [findVtx, if_neg hu] at h
      exact ih h

theorem listWeight_cons (e : Edge T) (l : List (Edge T)) :
    listWeight (e :: l) = e.weight + listWeight l := by
  simp [listWeight]

theorem listWeight_insertEdgeAux (h : T) (w : Int) (d : Rat)
    (l : List (Edge T)) :
    listWeight (insertEdgeAux h w d l) = listWeight l + w := by
  induction l with
  | nil => simp [insertEdgeAux, listWeight]
  | cons e rest ih =>
    by_cases he : e.value = h
    · simp only [insertEdgeAux, if_pos he, listWeight_cons]
      omega
    · by_cases hlt : h < e.value
      · simp only [insertEdgeAux, if_neg he, if_pos hlt, listWeight_cons]
        omega
      · simp only [insertEdgeAux, if_neg he, if_neg hlt, listWeight_cons, ih]
        omega

theorem delEdgeAux_snd_listWeight (h : T) (l : List (Edge T)) :
    listWeight (delEdgeAux h l).2 = listWeight l - (delEdgeAux h l).1 := by
  induction l with
  | nil => simp [delEdgeAux, listWeight]
  | cons e rest ih =>
    by_cases he : e.value = h
    · simp only [delEdgeAux, if_pos he, listWeight_cons]
      omega
    · simp only [delEdgeAux, if_neg he, listWeight_cons, ih]
      omega

theorem delEdgeAux_fst (h : T) (l : List (Edge T)) :
    (delEdgeAux h l).1 = (match findEdge h l with
      | some p => p.1
      | none => 0) := by
  induction l with
  | nil => simp [delEdgeAux, findEdge]
  | cons e rest ih =>
    by_cases he : e.value = h
    · simp [delEdgeAux, findEdge, if_pos he]
    · simp [delEdgeAux, findEdge, if_neg he, ih]

theorem delEdgeAux_sublist (h : T) (l : List (Edge T)) :
    (delEdgeAux h l).2.Sublist l := by
  induction l with
  | nil => simp [delEdgeAux]
  | cons e rest ih =>
    by_cases he : e.value = h
    · simp only [delEdgeAux, if_pos he]
      exact (List.sublist_cons_self e rest)
    · simp only [delEdgeAux, if_neg he]
      exact List.Sublist.cons₂ e ih

theorem any_eq_findEdge_isSome (h : T) (l : List (Edge T)) :
    (l.any (fun e => e.value = h)) = (findEdge h l).isSome := by
  induction l with
  | nil => simp [findEdge]
  | cons e rest ih =>
    by_cases he : e.value = h
    · simp [findEdge, if_pos he, he]
    · simp [findEdge, if_neg he, he, ih]

theorem findEdge_insertEdgeAux_self {h : T} {l : List (Edge T)}
    (hnone : findEdge h l = none) (w : Int) (d : Rat) :
    findEdge h (insertEdgeAux h w d l) = some (w, d) := by
  induction l with
  | nil => simp [insertEdgeAux, findEdge]
  | cons e rest ih =>
    by_cases he : e.value = h
    · simp [findEdge, if_pos he] at hnone
    · simp only [findEdge, if_neg he] at hnone
      by_cases hlt : h < e.value
      · simp [insertEdgeAux, if_neg he, if_pos hlt, findEdge]
      · simp [insertEdgeAux, if_neg he, if_neg hlt, findEdge, ih hnone]

theorem findEdge_insertEdgeAux_other {y h : T} (hne : y ≠ h)
    (w : Int) (d : Rat) (l : List (Edge T)) :
    findEdge y (insertEdgeAux h w d l) = findEdge y l := by
  induction l with
  | nil => simp [insertEdgeAux, findEdge, hne.symm]
  | cons e rest ih =>
    by_cases he : e.value = h
    · have hey : ¬ e.value = y := fun hh => hne (hh.symm.trans he)
      simp [insertEdgeAux, if_pos he, findEdge, hey]
    · by_cases hlt : h < e.value
      · have hhy : ¬ h = y := fun hh => hne hh.symm
        simp [insertEdgeAux, if_neg he, if_pos hlt, findEdge, hhy]
      · simp only [insertEdgeAux, if_neg he, if_neg hlt, findEdge, ih]

theorem insertEdgeAux_value_mem {x : T} {h : T} {w : Int} {d : Rat}
    {l : List (Edge T)}
    (hx : x ∈ (insertEdgeAux h w d l).map (fun e => e.value)) :
    x = h ∨ x ∈ l.map (fun e => e.value) := by
  induction l with
  | nil => simpa [insertEdgeAux] using hx
  | cons e rest ih =>
    by_cases he : e.value = h
    · simp only [insertEdgeAux, if_pos he, List.map_cons, List.mem_cons] at hx ⊢
      tauto
    · by_cases hlt : h < e.value
      · simp only [insertEdgeAux, if_neg he, if_pos hlt, List.map_cons,
          List.mem_cons] at hx ⊢
        tauto
      · simp only [insertEdgeAux, if_neg he, if_neg hlt, List.map_cons,
          List.mem_cons] at hx ⊢
        tauto

theorem sorted_insertEdgeAux {l : List (Edge T)} (h : T) (w : Int) (d : Rat)
    (hs : (l.map (fun e => e.value)).Pairwise (· < ·)) :
    ((insertEdgeAux h w d l).map (fun e => e.value)).Pairwise (· < ·) := by
  induction l with
  | nil => simp [insertEdgeAux]
  | cons e rest ih =>
    simp only [List.map_cons, List.pairwise_cons] at hs
    obtain ⟨hlt_all, hrest⟩ := hs
    by_cases he : e.value = h
    · simp only [insertEdgeAux, if_pos he, List.map_cons, List.pairwise_cons]
      exact ⟨hlt_all, hrest⟩
    · by_cases hlt : h < e.value
      · simp only [insertEdgeAux, if_neg he, if_pos hlt, List.map_cons,
          List.pairwise_cons, List.mem_cons]
        refine ⟨?_, hlt_all, hrest⟩
        intro x hx
        rcases hx with hx | hx
        · exact hx ▸ hlt
        · exact lt_trans hlt (hlt_all x hx)
      · have hgt : e.value < h := by
          rcases lt_trichotomy e.value h with hh | hh | hh
          · exact hh
          · exact absurd hh he
          · exact absurd hh hlt
        simp only [insertEdgeAux, if_neg he, if_neg hlt, List.map_cons,
          List.pairwise_cons]
        refine ⟨?_, ih hrest⟩
        intro x hx
        rcases insertEdgeAux_value_mem hx with hx | hx
        · exact hx ▸ hgt
        · exact hlt_all x hx

end GraphAdj

/-! ### Vertex-store level lemmas -/

namespace GraphAdj

variable {T : Type} [LinearOrder T]

theorem updateVtxFirst_absent {t : T} {vs : List (GraphAdjVertex T)}
    (h : findVtx t vs = none) (f : GraphAdjVertex T → GraphAdjVertex T) :
    updateVtxFirst t f vs = vs := by
  induction vs with
  | nil => rfl
  | cons u rest ih =>
    by_cases hu : u.value = t
    · simp [findVtx, if_pos hu] at h
    · simp only [findVtx, if_neg hu] at h
      simp [updateVtxFirst, if_neg hu, ih h]

theorem findVtx_updateVtxFirst_self (t : T)
    (f : GraphAdjVertex T → GraphAdjVertex T)
    (vs : List (GraphAdjVertex T)) (hval : ∀ v, (f v).value = v.value) :
    findVtx t (updateVtxFirst t f vs) = (findVtx t vs).map f := by
  induction vs with
  | nil => simp [updateVtxFirst, findVtx]
  | cons u rest ih =>
    by_cases hu : u.value = t
    · have : (f u).value = t := (hval u).trans hu
      simp [updateVtxFirst, if_pos hu, findVtx, this]
    · have : ¬ (f u).value = t := fun hh => hu ((hval u).symm.trans hh)
      simp only [updateVtxFirst, if_neg hu, findVtx, ih]

theorem findVtx_updateVtxFirst_ne {x t : T} (hne : x ≠ t)
    (f : GraphAdjVertex T → GraphAdjVertex T)
    (vs : List (GraphAdjVertex T)) (hval : ∀ v, (f v).value = v.value) :
    findVtx x (updateVtxFirst t f vs) = findVtx x vs := by
  induction vs with
  | nil => rfl
  | cons u rest ih =>
    by_cases hu : u.value = t
    · have h1 : ¬ (f u).value = x := by
        rw [hval u, hu]
        exact fun hh => hne hh.symm
      have h2 : ¬ u.value = x := by
        rw [hu]
        exact fun hh => hne hh.symm
      simp [updateVtxFirst, if_pos hu, findVtx, h1, h2]
    · simp only [updateVtxFirst, if_neg hu, findVtx, ih]

theorem rawCountL_updateVtxFirst {t : T} {vs : List (GraphAdjVertex T)}
    {v : GraphAdjVertex T} (hfind : findVtx t vs = some v)
    (f : GraphAdjVertex T → GraphAdjVertex T) :
    ((updateVtxFirst t f vs).map (fun u => listWeight u.next)).sum =
      (vs.map (fun u => listWeight u.next)).sum
        - listWeight v.next + listWeight (f v).next := by
  induction vs with
  | nil => simp [findVtx] at hfind
  | cons u rest ih =>
    by_cases hu : u.value = t
    · simp only [findVtx, if_pos hu, Option.some.injEq] at hfind
      subst hfind
      simp only [updateVtxFirst, if_pos hu, List.map_cons, List.sum_cons]
      omega
    · simp only [findVtx, if_neg hu] at hfind
      simp only [updateVtxFirst, if_neg hu, List.map_cons, List.sum_cons,
        ih hfind]
      omega

theorem findVtx_append_of_ne {x : T} {vs : List (GraphAdjVertex T)}
    {w : GraphAdjVertex T} (hw : ¬ w.value = x) :
    findVtx x (vs ++ [w]) = findVtx x vs := by
  induction vs with
  | nil => simp [findVtx, hw]
  | cons u rest ih =>
    by_cases hu : u.value = x
    · simp [findVtx, if_pos hu]
    · simp only [List.cons_append, findVtx, if_neg hu]
      exact ih

theorem findVtx_append_self_of_absent {t : T} {vs : List (GraphAdjVertex T)}
    (hf : findVtx t vs = none) {w : GraphAdjVertex T} (hw : w.value = t) :
    findVtx t (vs ++ [w]) = some w := by
  induction vs with
  | nil => simp [findVtx, hw]
  | cons u rest ih =>
    by_cases hu : u.value = t
    · simp [findVtx, if_pos hu] at hf
    · simp only [findVtx, if_neg hu] at hf
      simp only [List.cons_append, findVtx, if_neg hu]
      exact ih hf

theorem findVtx_append_some {x : T} {vs ws : List (GraphAdjVertex T)}
    {v : GraphAdjVertex T} (h : findVtx x vs = some v) :
    findVtx x (vs ++ ws) = some v := by
  induction vs with
  | nil => simp [findVtx] at h
  | cons u rest ih =>
    by_cases hu : u.value = x
    · simp only [findVtx, if_pos hu, Option.some.injEq] at h
      subst h
      simp [List.cons_append, findVtx, if_pos hu]
    · simp only [findVtx, if_neg hu] at h
      simp only [List.cons_append, findVtx, if_neg hu]
      exact ih h

theorem rawCount_ensureVtx (g : GraphAdj T) (t : T) :
    rawCount (ensureVtx g t) = rawCount g := by
  unfold ensureVtx
  cases hf : findVtx t g.vertices_ with
  | some v => rfl
  | none => simp [rawCount, listWeight]

theorem findVtx_ensureVtx_ne {x t : T} (hne : ¬ t = x) (g : GraphAdj T) :
    findVtx x (ensureVtx g t).vertices_ = findVtx x g.vertices_ := by
  unfold ensureVtx
  cases hf : findVtx t g.vertices_ with
  | some v => rfl
  | none => exact findVtx_append_of_ne hne

theorem findVtx_ensureVtx_mono {x y : T} {g : GraphAdj T}
    {v : GraphAdjVertex T} (h : findVtx x g.vertices_ = some v) :
    findVtx x (ensureVtx g y).vertices_ = some v := by
  unfold ensureVtx
  cases hf : findVtx y g.vertices_ with
  | some w => exact h
  | none => exact findVtx_append_some h

theorem findVtx_ensureVtx_self (g : GraphAdj T) (t : T) :
    ∃ v, findVtx t (ensureVtx g t).vertices_ = some v ∧
      v.value = t ∧ v.next = getList g t := by
  unfold ensureVtx
  cases hf : findVtx t g.vertices_ with
  | some v =>
    exact ⟨v, hf, findVtx_sound hf, by simp [getList, hf]⟩
  | none =>
    exact ⟨⟨t, false, []⟩, findVtx_append_self_of_absent hf rfl, rfl,
      by simp [getList, hf]⟩

theorem getList_ensureVtx (g : GraphAdj T) (y x : T) :
    getList (ensureVtx g y) x = getList g x := by
  unfold ensureVtx
  cases hf : findVtx y g.vertices_ with
  | some v => rfl
  | none =>
    unfold getList
    by_cases hxy : y = x
    · subst hxy
      rw [hf]
      rw [findVtx_append_self_of_absent hf rfl]
    · rw [findVtx_append_of_ne (fun hh => hxy hh)]

end GraphAdj

/-! ### Operation-level lemmas -/

namespace GraphAdj

variable {T : Type} [LinearOrder T]

theorem addEdge_ok_elim {g g' : GraphAdj T} {tail head : T} {w : Int}
    {d : Rat} (h : addEdge g tail head w d = .ok g') :
    tail ≠ head ∧
      g' = ⟨updateVtxFirst tail
        (fun v => { v with next := insertEdgeAux head w d v.next })
        (ensureVtx (ensureVtx g tail) head).vertices_⟩ := by
  unfold addEdge at h
  by_cases hth : tail = head
  · simp [hth] at h
  · simp only [if_neg hth] at h
    exact ⟨hth, (Except.ok.inj h).symm⟩

theorem addEdge_findVtx_tail {g : GraphAdj T} (tail head : T) :
    ∃ v, findVtx tail (ensureVtx (ensureVtx g tail) head).vertices_ = some v ∧
      v.value = tail ∧ v.next = getList g tail := by
  obtain ⟨v, hv, hval, hnext⟩ := findVtx_ensureVtx_self g tail
  exact ⟨v, findVtx_ensureVtx_mono hv, hval, hnext⟩

theorem rawCount_addEdge {g g' : GraphAdj T} {tail head : T} {w : Int}
    {d : Rat} (h : addEdge g tail head w d = .ok g') :
    rawCount g' = rawCount g + w := by
  obtain ⟨hth, rfl⟩ := addEdge_ok_elim h
  obtain ⟨v, hv, hval, hnext⟩ := addEdge_findVtx_tail (g := g) tail head
  have hraw := rawCountL_updateVtxFirst hv
    (fun u => { u with next := insertEdgeAux head w d u.next })
  have h2 : rawCount (ensureVtx (ensureVtx g tail) head) = rawCount g := by
    rw [rawCount_ensureVtx, rawCount_ensureVtx]
  unfold rawCount at h2 ⊢
  rw [hraw, h2]
  simp only [listWeight_insertEdgeAux]
  omega

theorem getList_addEdge_self {g g' : GraphAdj T} {tail head : T} {w : Int}
    {d : Rat} (h : addEdge g tail head w d = .ok g') :
    getList g' tail = insertEdgeAux head w d (getList g tail) := by
  obtain ⟨hth, rfl⟩ := addEdge_ok_elim h
  obtain ⟨v, hv, hval, hnext⟩ := addEdge_findVtx_tail (g := g) tail head
  unfold getList
  rw [show (⟨updateVtxFirst tail
      (fun u => { u with next := insertEdgeAux head w d u.next })
      (ensureVtx (ensureVtx g tail) head).vertices_⟩ : GraphAdj T).vertices_ =
    updateVtxFirst tail
      (fun u => { u with next := insertEdgeAux head w d u.next })
      (ensureVtx (ensureVtx g tail) head).vertices_ from rfl]
  rw [findVtx_updateVtxFirst_self tail
    (fun u => { u with next := insertEdgeAux head w d u.next }) _
    (fun u => rfl), hv]
  simp [hnext]
  rfl

theorem getList_addEdge_ne {g g' : GraphAdj T} {tail head x : T} {w : Int}
    {d : Rat} (h : addEdge g tail head w d = .ok g') (hx : x ≠ tail) :
    getList g' x = getList g x := by
  obtain ⟨hth, rfl⟩ := addEdge_ok_elim h
  unfold getList
  rw [show (⟨updateVtxFirst tail
      (fun u => { u with next := insertEdgeAux head w d u.next })
      (ensureVtx (ensureVtx g tail) head).vertices_⟩ : GraphAdj T).vertices_ =
    updateVtxFirst tail
      (fun u => { u with next := insertEdgeAux head w d u.next })
      (ensureVtx (ensureVtx g tail) head).vertices_ from rfl]
  rw [findVtx_updateVtxFirst_ne hx
    (fun u => { u with next := insertEdgeAux head w d u.next }) _
    (fun u => rfl)]
  have h1 := getList_ensureVtx (ensureVtx g tail) head x
  have h2 := getList_ensureVtx g tail x
  unfold getList at h1 h2
  rw [h1, h2]

theorem findVtx_addEdge_other {g g' : GraphAdj T} {tail head x : T} {w : Int}
    {d : Rat} (h : addEdge g tail head w d = .ok g')
    (hx1 : x ≠ tail) (hx2 : x ≠ head) :
    findVtx x g'.vertices_ = findVtx x g.vertices_ := by
  obtain ⟨hth, rfl⟩ := addEdge_ok_elim h
  rw [show (⟨updateVtxFirst tail
      (fun u => { u with next := insertEdgeAux head w d u.next })
      (ensureVtx (ensureVtx g tail) head).vertices_⟩ : GraphAdj T).vertices_ =
    updateVtxFirst tail
      (fun u => { u with next := insertEdgeAux head w d u.next })
      (ensureVtx (ensureVtx g tail) head).vertices_ from rfl]
  rw [findVtx_updateVtxFirst_ne hx1
    (fun u => { u with next := insertEdgeAux head w d u.next }) _
    (fun u => rfl)]
  rw [findVtx_ensureVtx_ne (fun hh => hx2 hh.symm)]
  rw [findVtx_ensureVtx_ne (fun hh => hx1 hh.symm)]

theorem delEdge_ok_cases {g g' : GraphAdj T} {tail head : T} {w : Int}
    (h : delEdge g tail head = .ok (w, g')) :
    tail ≠ head ∧
      ((findVtx tail g.vertices_ = none ∧ w = 0 ∧ g' = g) ∨
       (∃ v, findVtx tail g.vertices_ = some v ∧ v.next ≠ [] ∧
         w = (delEdgeAux head v.next).1 ∧
         g' = ⟨updateVtxFirst tail
           (fun u => { u with next := (delEdgeAux head v.next).2 })
           g.vertices_⟩)) := by
  unfold delEdge at h
  by_cases hth : tail = head
  · simp [hth] at h
  · simp only [if_neg hth] at h
    refine ⟨hth, ?_⟩
    cases hf : findVtx tail g.vertices_ with
    | none =>
      rw [hf] at h
      have h' := Except.ok.inj h
      injection h' with h1 h2
      exact Or.inl ⟨rfl, h1.symm, h2.symm⟩
    | some v =>
      simp only [hf] at h
      cases hv : v.next with
      | nil =>
        simp only [hv] at h
        exact Except.noConfusion h
      | cons e rest =>
        simp only [hv] at h
        have h' := Except.ok.inj h
        injection h' with h1 h2
        refine Or.inr ⟨v, rfl, by simp [hv], ?_, ?_⟩
        · rw [hv]
          exact h1.symm
        · rw [hv]
          exact h2.symm

theorem delEdge_fst {g g' : GraphAdj T} {tail head : T} {w : Int}
    (h : delEdge g tail head = .ok (w, g')) :
    w = edgeWeight g tail head := by
  obtain ⟨hth, hcases⟩ := delEdge_ok_cases h
  rcases hcases with ⟨hf, hw, _⟩ | ⟨v, hf, hne, hw, _⟩
  · rw [hw]
    unfold edgeWeight edgeOf getList
    rw [hf]
    rfl
  · rw [hw, delEdgeAux_fst]
    unfold edgeWeight edgeOf getList
    rw [hf]

theorem rawCount_delEdge {g g' : GraphAdj T} {tail head : T} {w : Int}
    (h : delEdge g tail head = .ok (w, g')) :
    rawCount g' = rawCount g - w := by
  obtain ⟨hth, hcases⟩ := delEdge_ok_cases h
  rcases hcases with ⟨hf, hw, hg⟩ | ⟨v, hf, hne, hw, hg⟩
  · rw [hg, hw]; omega
  · subst hg
    have hraw := rawCountL_updateVtxFirst hf
      (fun u => { u with next := (delEdgeAux head v.next).2 })
    simp only at hraw
    have hlw := delEdgeAux_snd_listWeight head v.next
    unfold rawCount
    rw [hraw]
    omega

theorem getList_delEdge_self {g g' : GraphAdj T} {tail head : T} {w : Int}
    (h : delEdge g tail head = .ok (w, g')) :
    getList g' tail = (delEdgeAux head (getList g tail)).2 := by
  obtain ⟨hth, hcases⟩ := delEdge_ok_cases h
  rcases hcases with ⟨hf, hw, hg⟩ | ⟨v, hf, hne, hw, hg⟩
  · rw [hg]
    unfold getList
    rw [hf]
    simp [delEdgeAux]
  · subst hg
    unfold getList
    rw [show (⟨updateVtxFirst tail
        (fun u => { u with next := (delEdgeAux head v.next).2 })
        g.vertices_⟩ : GraphAdj T).vertices_ =
      updateVtxFirst tail
        (fun u => { u with next := (delEdgeAux head v.next).2 })
        g.vertices_ from rfl]
    rw [findVtx_updateVtxFirst_self tail
      (fun u => { u with next := (delEdgeAux head v.next).2 }) _
      (fun u => rfl), hf]
    rfl

theorem getList_delEdge_ne {g g' : GraphAdj T} {tail head x : T} {w : Int}
    (h : delEdge g tail head = .ok (w, g')) (hx : x ≠ tail) :
    getList g' x = getList g x := by
  obtain ⟨hth, hcases⟩ := delEdge_ok_cases h
  rcases hcases with ⟨hf, hw, hg⟩ | ⟨v, hf, hne, hw, hg⟩
  · rw [hg]
  · subst hg
    unfold getList
    rw [show (⟨updateVtxFirst tail
        (fun u => { u with next := (delEdgeAux head v.next).2 })
        g.vertices_⟩ : GraphAdj T).vertices_ =
      updateVtxFirst tail
        (fun u => { u with next := (delEdgeAux head v.next).2 })
        g.vertices_ from rfl]
    rw [findVtx_updateVtxFirst_ne hx
      (fun u => { u with next := (delEdgeAux head v.next).2 }) _
      (fun u => rfl)]

theorem findVtx_delEdge_other {g g' : GraphAdj T} {tail head x : T} {w : Int}
    (h : delEdge g tail head = .ok (w, g')) (hx : x ≠ tail) :
    findVtx x g'.vertices_ = findVtx x g.vertices_ := by
  obtain ⟨hth, hcases⟩ := delEdge_ok_cases h
  rcases hcases with ⟨hf, hw, hg⟩ | ⟨v, hf, hne, hw, hg⟩
  · rw [hg]
  · subst hg
    exact findVtx_updateVtxFirst_ne hx
      (fun u => { u with next := (delEdgeAux head v.next).2 }) _
      (fun u => rfl)

theorem delEdge_ne_endpoints {g g' : GraphAdj T} {tail head : T} {w : Int}
    (h : delEdge g tail head = .ok (w, g')) : tail ≠ head :=
  (delEdge_ok_cases h).1

theorem clearListE_ok_elim {g g' : GraphAdj T} {t : T}
    (h : clearListE g t = .ok g') :
    ∃ v, findVtx t g.vertices_ = some v ∧
      g' = ⟨updateVtxFirst t (fun u => { u with next := [] })
        g.vertices_⟩ := by
  unfold clearListE at h
  cases hf : findVtx t g.vertices_ with
  | none =>
    rw [hf] at h
    exact Except.noConfusion h
  | some v =>
    rw [hf] at h
    exact ⟨v, rfl, (Except.ok.inj h).symm⟩

theorem rawCount_clearListE {g g' : GraphAdj T} {t : T}
    (h : clearListE g t = .ok g') :
    rawCount g' = rawCount g - listWeight (getList g t) := by
  obtain ⟨v, hf, hg⟩ := clearListE_ok_elim h
  subst hg
  have hraw := rawCountL_updateVtxFirst hf (fun u => { u with next := [] })
  show ((updateVtxFirst t _ _).map (fun u => listWeight u.next)).sum = _
  rw [hraw]
  unfold rawCount getList
  rw [hf]
  simp [listWeight]

theorem findVtx_clearListE_self {g g' : GraphAdj T} {t : T}
    (h : clearListE g t = .ok g') :
    ∃ v, findVtx t g'.vertices_ = some v ∧ v.value = t ∧ v.next = [] := by
  obtain ⟨v, hf, hg⟩ := clearListE_ok_elim h
  subst hg
  refine ⟨{ v with next := [] }, ?_, ?_, rfl⟩
  · rw [show (⟨updateVtxFirst t (fun u => { u with next := [] })
        g.vertices_⟩ : GraphAdj T).vertices_ =
      updateVtxFirst t (fun u => { u with next := [] }) g.vertices_ from rfl]
    rw [findVtx_updateVtxFirst_self t (fun u => { u with next := [] }) _
      (fun u => rfl), hf]
    rfl
  · show v.value = t
    exact findVtx_sound hf

end GraphAdj

/-! ### Undirected operations: weight accounting -/

namespace UdGraphAdj

open GraphAdj

variable {T : Type} [LinearOrder T]

theorem disconnect_ok_facts {g g' : GraphAdj T} {a b : T} {w : Int}
    (h : disconnect g a b = .ok (w, g')) :
    a ≠ b ∧ w = edgeWeight g a b ∧ rawCount g' = rawCount g - 2 * w := by
  unfold disconnect at h
  by_cases hab : a = b
  · simp [hab] at h
  · simp only [if_neg hab] at h
    cases hd1 : delEdge g a b with
    | error e =>
      rw [hd1] at h
      exact Except.noConfusion h
    | ok p1 =>
      obtain ⟨w1, g1⟩ := p1
      simp only [hd1] at h
      cases hd2 : delEdge g1 b a with
      | error e =>
        rw [hd2] at h
        exact Except.noConfusion h
      | ok p2 =>
        obtain ⟨w2, g2⟩ := p2
        simp only [hd2] at h
        by_cases hw : w1 = w2
        · simp only [if_pos hw] at h
          have h' := Except.ok.inj h
          injection h' with hwe hge
          subst hwe; subst hge
          refine ⟨hab, delEdge_fst hd1, ?_⟩
          have hr1 := rawCount_delEdge hd1
          have hr2 := rawCount_delEdge hd2
          omega
        · simp only [if_neg hw] at h
          exact Except.noConfusion h

theorem collapseLoop_ok_facts {src dst : T} (hsd : src ≠ dst)
    (l : List (Edge T)) :
    ∀ (g g' : GraphAdj T), collapseLoop src dst l g = .ok g' →
      rawCount g' = rawCount g + listWeight l ∧
      findVtx src g'.vertices_ = findVtx src g.vertices_ := by
  induction l with
  | nil =>
    intro g g' h
    simp only [collapseLoop, Except.ok.injEq] at h
    subst h
    simp [listWeight]
  | cons e rest ih =>
    intro g g' h
    simp only [collapseLoop] at h
    cases hd : delEdge g e.value src with
    | error err =>
      rw [hd] at h
      exact Except.noConfusion h
    | ok p =>
      obtain ⟨w1, g1⟩ := p
      simp only [hd] at h
      cases ha1 : addEdge g1 e.value dst w1 1 with
      | error err =>
        rw [ha1] at h
        exact Except.noConfusion h
      | ok g2 =>
        simp only [ha1] at h
        cases ha2 : addEdge g2 dst e.value e.weight 1 with
        | error err =>
          rw [ha2] at h
          exact Except.noConfusion h
        | ok g3 =>
          simp only [ha2] at h
          obtain ⟨hraw, hfind⟩ := ih g3 g' h
          have hne1 : e.value ≠ src := delEdge_ne_endpoints hd
          have hr1 := rawCount_delEdge hd
          have hr2 := rawCount_addEdge ha1
          have hr3 := rawCount_addEdge ha2
          have hf1 := findVtx_delEdge_other hd (Ne.symm hne1)
          have hf2 := findVtx_addEdge_other ha1 (Ne.symm hne1) hsd
          have hf3 := findVtx_addEdge_other ha2 hsd (Ne.symm hne1)
          constructor
          · rw [hraw, hr3, hr2, hr1, listWeight_cons]
            omega
          · rw [hfind, hf3, hf2, hf1]

theorem collapse_rawCount {g g' : GraphAdj T} {src dst : T}
    (h : collapse g src dst = .ok g') :
    src ≠ dst ∧ rawCount g' = rawCount g - 2 * edgeWeight g src dst := by
  unfold collapse at h
  by_cases hsd : src = dst
  · simp [hsd] at h
  · simp only [if_neg hsd] at h
    refine ⟨hsd, ?_⟩
    cases hd : disconnect g src dst with
    | error e =>
      rw [hd] at h
      exact Except.noConfusion h
    | ok p =>
      obtain ⟨w0, g1⟩ := p
      simp only [hd] at h
      obtain ⟨_, hw0, hraw1⟩ := disconnect_ok_facts hd
      cases hfv : findVtx src g1.vertices_ with
      | none =>
        rw [hfv] at h
        exact Except.noConfusion h
      | some v =>
        simp only [hfv] at h
        cases hcl : collapseLoop src dst v.next g1 with
        | error e =>
          rw [hcl] at h
          exact Except.noConfusion h
        | ok g2 =>
          simp only [hcl] at h
          obtain ⟨hraw2, hfind2⟩ := collapseLoop_ok_facts hsd v.next g1 g2 hcl
          have hraw3 := rawCount_clearListE h
          have hgl : getList g2 src = v.next := by
            unfold getList
            rw [hfind2, hfv]
          rw [hgl] at hraw3
          rw [hraw3, hraw2, hraw1, hw0]
          ring

end UdGraphAdj

/-! ### Claim C1: weight conservation under undirected collapse -/

/-- C1: for every undirected graph state and every `src ≠ dst`, if
`collapse(src, dst)` runs to completion then the total edge weight
reported by `countEdge` afterwards is exactly the total before minus the
weight of the direct src-dst edge that existed before the collapse (zero
when there was none); no other weight is gained or lost. -/
theorem claim_C1_weight_conservation {T : Type} [LinearOrder T]
    {g g' : GraphAdj T} {src dst : T} {n : Int}
    (hcol : UdGraphAdj.collapse g src dst = .ok g')
    (hcount : UdGraphAdj.countEdge g = .ok n) :
    UdGraphAdj.countEdge g' = .ok (n - GraphAdj.edgeWeight g src dst) := by
  obtain ⟨hsd, hraw⟩ := UdGraphAdj.collapse_rawCount hcol
  unfold UdGraphAdj.countEdge at hcount ⊢
  by_cases hmod : GraphAdj.rawCount g % 2 = 0
  · simp only [if_pos hmod] at hcount
    have hn := Except.ok.inj hcount
    have hmod' : GraphAdj.rawCount g' % 2 = 0 := by omega
    simp only [if_pos hmod']
    congr 1
    omega
  · simp only [if_neg hmod] at hcount
    exact Except.noConfusion hcount

/-- Witness for C1: the specification triangle scenario, collapsing
vertex 1 into vertex 2 (total weight 3 before, a direct 1-2 edge of
weight 1, total weight 2 after). -/
theorem claim_C1_witness :
    UdGraphAdj.collapse triangleUd 1 2 = .ok triangleUdCollapsed ∧
    UdGraphAdj.countEdge triangleUd = .ok 3 ∧
    UdGraphAdj.countEdge triangleUdCollapsed =
      .ok (3 - GraphAdj.edgeWeight triangleUd 1 2) :=
  ⟨by decide, by decide, claim_C1_weight_conservation (by decide) (by decide)⟩

/-! ### Claim C10: disconnect with identical endpoints -/

/-- C10: for every graph state and key `a`, `disconnect(a, a)` fails an
assertion on both kinds (the `assert(tail != head)` of `delEdge` on the
directed class; the `assert(first != second)` of the undirected
override) rather than returning zero. -/
theorem claim_C10_self_disconnect_asserts {T : Type} [LinearOrder T]
    (g : GraphAdj T) (a : T) :
    GraphAdj.disconnect g a a = .error .assertFail ∧
    UdGraphAdj.disconnect g a a = .error .assertFail := by
  constructor
  · unfold GraphAdj.disconnect GraphAdj.delEdge
    simp
  · unfold UdGraphAdj.disconnect
    simp

/-! ### Claim C5: removal on an empty edge list -/

/-- C5 (failing input): `delEdge` only guards against an absent tail
vertex, not an empty list; after `connect(1,2)` and `disconnect(1,2)`,
vertex 1 exists with an empty list, and a second `disconnect(1,2)`
dereferences the null list head instead of returning weight zero. -/
theorem claim_C5_empty_list_null_deref :
    GOp.runDirOps GraphAdj.emptyG
      [.connect 1 2 1 1, .disconnect 1 2, .disconnect (1 : Int) 2] =
      .error .nullDeref := by decide

/-! ### Claim C2: repeated connect on the same directed pair -/

/-- C2 (counterexample): after directed `connect(1,2,weight=2)`, a second
`connect(1,2,weight=3)` hits the already-connected guard and returns
`false`; the single edge keeps weight 2 — not the weight 5 the claim
requires. -/
theorem claim_C2_counterexample :
    GOp.runDirOps GraphAdj.emptyG
      [.connect 1 2 2 1, .connect (1 : Int) 2 3 1] = .ok dirPairW2 ∧
    GraphAdj.getList dirPairW2 1 = [⟨2, 2, 1⟩] ∧
    GraphAdj.edgeWeight dirPairW2 1 2 = 2 ∧ (2 : Int) ≠ 5 := by decide

/-- C2 (amended): the second `connect(1,2,weight=3)` returns `false` and
leaves the single edge 1->2 with weight 2 unchanged; weight accumulation
to 5 happens only through the internal `addEdge` primitive (the path
`collapse` uses), which is not reachable through `connect` for an
already-connected pair. -/
theorem claim_C2_amended :
    GraphAdj.connect GraphAdj.emptyG (1 : Int) 2 2 1 = .ok (true, dirPairW2) ∧
    GraphAdj.connect dirPairW2 (1 : Int) 2 3 1 = .ok (false, dirPairW2) ∧
    GraphAdj.getList dirPairW2 1 = [⟨2, 2, 1⟩] ∧
    GraphAdj.addEdge dirPairW2 (1 : Int) 2 3 1 =
      .ok ⟨[⟨1, false, [⟨2, 5, 1⟩]⟩, ⟨2, false, []⟩]⟩ := by decide

/-! ### Claim C9: self-loop attempts in connect -/

/-- C9 (counterexample): on a directed graph in which key 1 is already a
vertex, `connect(1, 1)` does not fail any assertion: `isConnected(1,1)`
reports `true` (self-connectivity), so `connect` returns an ordinary
`false` and leaves the graph unchanged. -/
theorem claim_C9_counterexample :
    GraphAdj.connect dirPair (1 : Int) 1 1 1 = .ok (false, dirPair) := by
  decide

/-- C9 (amended): the undirected `connect(a, a)` always fails its
assertion; the directed `connect(a, a)` fails the `addEdge` assertion
only when `a` is not yet a vertex, and silently returns `false` without
mutation when `a` exists (because `isConnected(a,a)` is then `true`). -/
theorem claim_C9_amended {T : Type} [LinearOrder T]
    (g : GraphAdj T) (a : T) (w : Int) (d : Rat) :
    UdGraphAdj.connect g a a w d = .error .assertFail ∧
    (GraphAdj.findVtx a g.vertices_ = none →
      GraphAdj.connect g a a w d = .error .assertFail) ∧
    (∀ v, GraphAdj.findVtx a g.vertices_ = some v →
      GraphAdj.connect g a a w d = .ok (false, g)) := by
  refine ⟨?_, ?_, ?_⟩
  · unfold UdGraphAdj.connect
    simp
  · intro hf
    unfold GraphAdj.connect GraphAdj.isConnected GraphAdj.addEdge
    rw [hf]
    simp
  · intro v hf
    unfold GraphAdj.connect GraphAdj.isConnected
    rw [hf]
    simp

/-- Witness for C9 (amended), at concrete graphs: the undirected refusal,
the directed assertion for an absent key, and the directed silent
`false` for a present key. -/
theorem claim_C9_witness :
    UdGraphAdj.connect dirPair (1 : Int) 1 1 1 = .error .assertFail ∧
    GraphAdj.connect GraphAdj.emptyG (5 : Int) 5 1 1 = .error .assertFail ∧
    GraphAdj.connect dirPair (2 : Int) 2 1 1 = .ok (false, dirPair) :=
  ⟨(claim_C9_amended dirPair 1 1 1).1,
   (claim_C9_amended GraphAdj.emptyG 5 1 1).2.1 (by decide),
   (claim_C9_amended dirPair 2 1 1).2.2 ⟨2, false, []⟩ (by decide)⟩

/-! ### Claim C3: collapse on both kinds -/

/-- C3 (counterexample): the directed base-class `collapse` has an empty
body; after directed `connect(1,2)`, `collapse(1, 2)` leaves the graph
unchanged and in particular does not clear the edge list of the source
vertex 1, which still holds its edge to 2. -/
theorem claim_C3_counterexample :
    GraphAdj.collapse dirPair (1 : Int) 2 = dirPair ∧
    GraphAdj.getList (GraphAdj.collapse dirPair (1 : Int) 2) 1 =
      [⟨2, 1, 1⟩] ∧
    [(⟨2, 1, 1⟩ : Edge Int)] ≠ [] := by decide

/-- C3 (amended): `collapse` is declared in the shared capability set,
but only the undirected override reroutes and clears: the directed
base-class implementation is an empty body that returns the graph
unchanged, while every completed undirected `collapse(src, dst)` leaves
`src` a valid vertex with an empty edge list. -/
theorem claim_C3_amended {T : Type} [LinearOrder T] :
    (∀ (g : GraphAdj T) (src dst : T), GraphAdj.collapse g src dst = g) ∧
    (∀ (g g' : GraphAdj T) (src dst : T),
      UdGraphAdj.collapse g src dst = .ok g' →
      ∃ v, GraphAdj.findVtx src g'.vertices_ = some v ∧
        v.value = src ∧ v.next = []) := by
  constructor
  · intro g src dst
    rfl
  · intro g g' src dst h
    unfold UdGraphAdj.collapse at h
    by_cases hsd : src = dst
    · simp [hsd] at h
    · simp only [if_neg hsd] at h
      cases hd : UdGraphAdj.disconnect g src dst with
      | error e =>
        rw [hd] at h
        exact Except.noConfusion h
      | ok p =>
        obtain ⟨w0, g1⟩ := p
        simp only [hd] at h
        cases hfv : GraphAdj.findVtx src g1.vertices_ with
        | none =>
          rw [hfv] at h
          exact Except.noConfusion h
        | some v =>
          simp only [hfv] at h
          cases hcl : UdGraphAdj.collapseLoop src dst v.next g1 with
          | error e =>
            rw [hcl] at h
            exact Except.noConfusion h
          | ok g2 =>
            simp only [hcl] at h
            exact GraphAdj.findVtx_clearListE_self h

/-- Witness for C3 (amended): the directed no-op on a one-edge graph, and
the undirected triangle collapse leaving vertex 1 present and isolated. -/
theorem claim_C3_witness :
    GraphAdj.collapse dirTriangle (1 : Int) 2 = dirTriangle ∧
    (∃ v, GraphAdj.findVtx (1 : Int) triangleUdCollapsed.vertices_ =
      some v ∧ v.value = 1 ∧ v.next = []) :=
  ⟨claim_C3_amended.1 dirTriangle 1 2,
   claim_C3_amended.2 triangleUd triangleUdCollapsed 1 2 (by decide)⟩

/-! ### Claim C7: depth-first search returns finishing order -/

/-- C7: on the directed graph with edges 1->2, 2->3, 1->3 (built by three
`connect` calls), `depthFirstSearch(1)` explores the ascending-ordered
neighbours first and returns the sink sequence [3, 2, 1] — finishing
(post-) order, not discovery order. -/
theorem claim_C7_dfs_finishing_order :
    GOp.runDirOps GraphAdj.emptyG
      [.connect 1 2 1 1, .connect 2 3 1 1, .connect (1 : Int) 3 1 1] =
      .ok dirTriangle ∧
    (GraphAdj.depthFirstSearch dirTriangle 1).map Prod.fst =
      .ok [3, 2, 1] := by
  refine ⟨by decide, ?_⟩
  simp [GraphAdj.depthFirstSearch, GraphAdj.dfsLoop, GraphAdj.findUnvisited,
    GraphAdj.findVtx, GraphAdj.setFlag, GraphAdj.markVisited,
    GraphAdj.updateVtxFirst, dirTriangle, Except.map]

/-! ### Traversal flag lemmas -/

namespace GraphAdj

variable {T : Type} [LinearOrder T]

theorem resetAll_updateFlag (t : T) (vs : List (GraphAdjVertex T)) :
    (updateVtxFirst t (fun v => { v with visited := true }) vs).map
        (fun v => { v with visited := false }) =
      vs.map (fun v => { v with visited := false }) := by
  induction vs with
  | nil => rfl
  | cons u rest ih =>
    by_cases hu : u.value = t
    · simp [updateVtxFirst, if_pos hu]
    · simp only [updateVtxFirst, if_neg hu, List.map_cons]
      rw [ih]

theorem resetAll_setFlag (g : GraphAdj T) (t : T) :
    resetAll (setFlag g t) = resetAll g := by
  unfold resetAll setFlag
  rw [show (⟨updateVtxFirst t (fun v => { v with visited := true })
      g.vertices_⟩ : GraphAdj T).vertices_ =
    updateVtxFirst t (fun v => { v with visited := true })
      g.vertices_ from rfl]
  rw [resetAll_updateFlag]

theorem bfsChildren_resetAll {g g' : GraphAdj T} {l : List (Edge T)}
    {track vis track' vis' : List T}
    (h : bfsChildren g l track vis = .ok (g', track', vis')) :
    resetAll g' = resetAll g := by
  induction l generalizing g track vis with
  | nil =>
    simp only [bfsChildren, Except.ok.injEq, Prod.mk.injEq] at h
    rw [h.1]
  | cons e rest ih =>
    simp only [bfsChildren] at h
    cases hf : findVtx e.value g.vertices_ with
    | none => simp [hf] at h
    | some nv =>
      simp only [hf] at h
      cases hv : nv.visited with
      | true =>
        rw [hv] at h
        simp only [if_pos rfl] at h
        exact ih h
      | false =>
        rw [hv] at h
        simp at h
        rw [ih h, resetAll_setFlag]

theorem bfsLoop_resetAll {g g2 : GraphAdj T} {track vis vis2 : List T}
    (h : bfsLoop g track vis = .ok (g2, vis2)) :
    resetAll g2 = resetAll g := by
  induction g, track, vis using bfsLoop.induct with
  | case1 g vis =>
    simp only [bfsLoop, Except.ok.injEq, Prod.mk.injEq] at h
    rw [h.1]
  | case2 g vis front rest hf =>
    simp only [bfsLoop] at h
    rw [hf] at h
    exact Except.noConfusion h
  | case3 g vis front rest v hf e hc =>
    simp only [bfsLoop] at h
    simp only [hf] at h
    split at h
    · exact Except.noConfusion h
    · rename_i g' track' vis' heq
      rw [hc] at heq
      exact Except.noConfusion heq
  | case4 g vis front rest v hf g3 track3 vis3 hc ih =>
    simp only [bfsLoop] at h
    simp only [hf] at h
    split at h
    · exact Except.noConfusion h
    · rename_i g' track' vis' heq
      rw [hc] at heq
      have h1 := Except.ok.inj heq
      injection h1 with hg hrest
      injection hrest with htr hvi
      subst hg
      subst htr
      subst hvi
      rw [ih h, bfsChildren_resetAll hc]

theorem map_reset_eq_self {vs : List (GraphAdjVertex T)}
    (hall : ∀ u ∈ vs, u.visited = false) :
    vs.map (fun v => { v with visited := false }) = vs := by
  induction vs with
  | nil => rfl
  | cons u rest ih =>
    have hu := hall u (by simp)
    simp only [List.map_cons]
    rw [ih (fun x hx => hall x (by simp [hx]))]
    cases u with
    | mk a b c =>
      have hb : b = false := hu
      rw [hb]

theorem resetAll_eq_self {g : GraphAdj T}
    (hall : ∀ u ∈ g.vertices_, u.visited = false) :
    resetAll g = g := by
  unfold resetAll
  cases g with
  | mk vs =>
    simp only [GraphAdj.mk.injEq]
    exact map_reset_eq_self hall

end GraphAdj

/-! ### Claim C8: traversal idempotence and visited flags -/

/-- C8 (counterexample): `depthFirstSearch` does not reset the visited
flags (the `reset()` call in the source is commented out): after one DFS
over the one-edge graph both flags are left `true`, and repeating the
same call returns `[1]` instead of `[2, 1]`. -/
theorem claim_C8_counterexample :
    GraphAdj.depthFirstSearch dirPair (1 : Int) =
      .ok ([2, 1], dirPairVisited) ∧
    GraphAdj.depthFirstSearch dirPairVisited (1 : Int) =
      .ok ([1], dirPairVisited) ∧
    ([2, 1] : List Int) ≠ [1] ∧
    ¬ (∀ u ∈ dirPairVisited.vertices_, u.visited = false) := by
  refine ⟨?_, ?_, by decide, by decide⟩
  · simp [GraphAdj.depthFirstSearch, GraphAdj.dfsLoop, GraphAdj.findUnvisited,
      GraphAdj.findVtx, GraphAdj.setFlag, GraphAdj.markVisited,
      GraphAdj.updateVtxFirst, dirPair, dirPairVisited]
  · simp [GraphAdj.depthFirstSearch, GraphAdj.dfsLoop, GraphAdj.findUnvisited,
      GraphAdj.findVtx, GraphAdj.setFlag, GraphAdj.markVisited,
      GraphAdj.updateVtxFirst, dirPair, dirPairVisited]

/-- C8 (amended): breadth-first search does satisfy the claim — starting
from a graph whose visited flags are all clear, it returns the graph in
exactly its initial state (flags all false), so an immediate repeat
returns the identical sequence; depth-first search, by contrast, leaves
the flags set (see the counterexample). -/
theorem claim_C8_amended {T : Type} [LinearOrder T]
    {g g' : GraphAdj T} {v : T} {r : List T}
    (hall : ∀ u ∈ g.vertices_, u.visited = false)
    (h : GraphAdj.breathFirstSearch g v = .ok (r, g')) :
    g' = g ∧ (∀ u ∈ g'.vertices_, u.visited = false) ∧
    GraphAdj.breathFirstSearch g' v = .ok (r, g') := by
  have hg : g' = g := by
    unfold GraphAdj.breathFirstSearch at h
    cases hf : GraphAdj.findVtx v g.vertices_ with
    | none =>
      rw [hf] at h
      have h1 := Except.ok.inj h
      injection h1 with h2 h3
      exact h3.symm
    | some u =>
      simp only [hf] at h
      cases hl : GraphAdj.bfsLoop (GraphAdj.setFlag g v) [v] [v] with
      | error e =>
        rw [hl] at h
        exact Except.noConfusion h
      | ok p =>
        obtain ⟨g2, vis⟩ := p
        simp only [hl] at h
        have h1 := Except.ok.inj h
        injection h1 with h2 h3
        have hr := GraphAdj.bfsLoop_resetAll hl
        rw [GraphAdj.resetAll_setFlag] at hr
        rw [← h3, hr]
        exact GraphAdj.resetAll_eq_self hall
  subst hg
  exact ⟨rfl, hall, h⟩

/-- Helper for the C8 witness: one concrete breadth-first search,
evaluated by unfolding the loop. -/
theorem bfs_dirPair_eval :
    GraphAdj.breathFirstSearch dirPair (1 : Int) = .ok ([1, 2], dirPair) := by
  simp [GraphAdj.breathFirstSearch, GraphAdj.bfsLoop, GraphAdj.bfsChildren,
    GraphAdj.findVtx, GraphAdj.setFlag, GraphAdj.resetAll,
    GraphAdj.updateVtxFirst, dirPair]

/-- Witness for C8 (amended) at the one-edge graph with clear flags. -/
theorem claim_C8_witness :
    dirPair = dirPair ∧ (∀ u ∈ dirPair.vertices_, u.visited = false) ∧
    GraphAdj.breathFirstSearch dirPair (1 : Int) = .ok ([1, 2], dirPair) :=
  claim_C8_amended (by decide) bfs_dirPair_eval

/-! ### Sortedness preservation -/

namespace GraphAdj

variable {T : Type} [LinearOrder T]

theorem findVtx_mem {t : T} {vs : List (GraphAdjVertex T)}
    {v : GraphAdjVertex T} (h : findVtx t vs = some v) : v ∈ vs := by
  induction vs with
  | nil => simp [findVtx] at h
  | cons u rest ih =>
    by_cases hu : u.value = t
    · simp only [findVtx, if_pos hu, Option.some.injEq] at h
      subst h
      simp
    · simp only [findVtx, if_neg hu] at h
      simp [ih h]

theorem mem_updateVtxFirst {t : T}
    {f : GraphAdjVertex T → GraphAdjVertex T}
    {vs : List (GraphAdjVertex T)} {v' : GraphAdjVertex T}
    (h : v' ∈ updateVtxFirst t f vs) :
    v' ∈ vs ∨ ∃ w, findVtx t vs = some w ∧ v' = f w := by
  induction vs with
  | nil => simp [updateVtxFirst] at h
  | cons u rest ih =>
    by_cases hu : u.value = t
    · simp only [updateVtxFirst, if_pos hu, List.mem_cons] at h
      rcases h with h | h
      · exact Or.inr ⟨u, by simp [findVtx, if_pos hu], h⟩
      · exact Or.inl (by simp [h])
    · simp only [updateVtxFirst, if_neg hu, List.mem_cons] at h
      rcases h with h | h
      · exact Or.inl (by simp [h])
      · rcases ih h with h2 | ⟨w, hw, he⟩
        · exact Or.inl (by simp [h2])
        · exact Or.inr ⟨w, by simp [findVtx, if_neg hu, hw], he⟩

theorem mem_ensureVtx {g : GraphAdj T} {t : T} {v' : GraphAdjVertex T}
    (h : v' ∈ (ensureVtx g t).vertices_) :
    v' ∈ g.vertices_ ∨ v' = ⟨t, false, []⟩ := by
  unfold ensureVtx at h
  cases hf : findVtx t g.vertices_ with
  | some u =>
    rw [hf] at h
    exact Or.inl h
  | none =>
    rw [hf] at h
    simp only [List.mem_append, List.mem_singleton] at h
    exact h

theorem sortedLists_ensureVtx {g : GraphAdj T} {t : T}
    (hs : SortedLists g) : SortedLists (ensureVtx g t) := by
  intro v' hv'
  rcases mem_ensureVtx hv' with h | h
  · exact hs v' h
  · subst h
    simp

theorem sortedLists_addEdge {g g' : GraphAdj T} {tail head : T} {w : Int}
    {d : Rat} (h : addEdge g tail head w d = .ok g')
    (hs : SortedLists g) : SortedLists g' := by
  obtain ⟨hth, rfl⟩ := addEdge_ok_elim h
  intro v' hv'
  have hs2 : SortedLists (ensureVtx (ensureVtx g tail) head) :=
    sortedLists_ensureVtx (sortedLists_ensureVtx hs)
  rcases mem_updateVtxFirst hv' with hin | ⟨u, hu, rfl⟩
  · exact hs2 v' hin
  · exact sorted_insertEdgeAux head w d (hs2 u (findVtx_mem hu))

theorem sortedLists_delEdge {g g' : GraphAdj T} {tail head : T} {w : Int}
    (h : delEdge g tail head = .ok (w, g')) (hs : SortedLists g) :
    SortedLists g' := by
  obtain ⟨hth, hcases⟩ := delEdge_ok_cases h
  rcases hcases with ⟨hf, hw, hg⟩ | ⟨v, hf, hne, hw, hg⟩
  · rw [hg]
    exact hs
  · subst hg
    intro v' hv'
    rcases mem_updateVtxFirst hv' with hin | ⟨u, hu, rfl⟩
    · exact hs v' hin
    · have hsub := (delEdgeAux_sublist head v.next).map (fun e => e.value)
      exact (hs v (findVtx_mem hf)).sublist hsub

theorem sortedLists_clearListE {g g' : GraphAdj T} {t : T}
    (h : clearListE g t = .ok g') (hs : SortedLists g) :
    SortedLists g' := by
  obtain ⟨v, hf, hg⟩ := clearListE_ok_elim h
  subst hg
  intro v' hv'
  rcases mem_updateVtxFirst hv' with hin | ⟨u, hu, rfl⟩
  · exact hs v' hin
  · simp

theorem sortedLists_connect {g g' : GraphAdj T} {a b : T} {fl : Bool}
    {w : Int} {d : Rat} (h : connect g a b w d = .ok (fl, g'))
    (hs : SortedLists g) : SortedLists g' := by
  unfold connect at h
  by_cases hc : isConnected g a b
  · simp only [if_pos hc] at h
    have h1 := Except.ok.inj h
    injection h1 with h2 h3
    rw [← h3]
    exact hs
  · simp only [if_neg hc] at h
    cases ha : addEdge g a b w d with
    | error e =>
      rw [ha] at h
      exact Except.noConfusion h
    | ok g1 =>
      simp only [ha] at h
      have h1 := Except.ok.inj h
      injection h1 with h2 h3
      rw [← h3]
      exact sortedLists_addEdge ha hs

end GraphAdj

namespace UdGraphAdj

open GraphAdj

variable {T : Type} [LinearOrder T]

theorem sortedLists_connect_ud {g g' : GraphAdj T} {a b : T} {fl : Bool}
    {w : Int} {d : Rat} (h : connect g a b w d = .ok (fl, g'))
    (hs : SortedLists g) : SortedLists g' := by
  unfold connect at h
  by_cases hab : a = b
  · simp [hab] at h
  · simp only [if_neg hab] at h
    cases hi : isConnected g a b with
    | error e =>
      rw [hi] at h
      exact Except.noConfusion h
    | ok c =>
      simp only [hi] at h
      cases c with
      | true =>
        simp only at h
        have h1 := Except.ok.inj h
        injection h1 with h2 h3
        rw [← h3]
        exact hs
      | false =>
        simp only at h
        cases ha1 : addEdge g a b w d with
        | error e =>
          rw [ha1] at h
          exact Except.noConfusion h
        | ok g1 =>
          simp only [ha1] at h
          cases ha2 : addEdge g1 b a w d with
          | error e =>
            rw [ha2] at h
            exact Except.noConfusion h
          | ok g2 =>
            simp only [ha2] at h
            have h1 := Except.ok.inj h
            injection h1 with h2 h3
            rw [← h3]
            exact sortedLists_addEdge ha2 (sortedLists_addEdge ha1 hs)

theorem sortedLists_disconnect_ud {g g' : GraphAdj T} {a b : T} {w : Int}
    (h : disconnect g a b = .ok (w, g')) (hs : SortedLists g) :
    SortedLists g' := by
  unfold disconnect at h
  by_cases hab : a = b
  · simp [hab] at h
  · simp only [if_neg hab] at h
    cases hd1 : delEdge g a b with
    | error e =>
      rw [hd1] at h
      exact Except.noConfusion h
    | ok p1 =>
      obtain ⟨w1, g1⟩ := p1
      simp only [hd1] at h
      cases hd2 : delEdge g1 b a with
      | error e =>
        rw [hd2] at h
        exact Except.noConfusion h
      | ok p2 =>
        obtain ⟨w2, g2⟩ := p2
        simp only [hd2] at h
        by_cases hw : w1 = w2
        · simp only [if_pos hw] at h
          have h1 := Except.ok.inj h
          injection h1 with h2 h3
          rw [← h3]
          exact sortedLists_delEdge hd2 (sortedLists_delEdge hd1 hs)
        · simp only [if_neg hw] at h
          exact Except.noConfusion h

theorem sortedLists_collapseLoop {src dst : T} (l : List (Edge T)) :
    ∀ (g g' : GraphAdj T), collapseLoop src dst l g = .ok g' →
      SortedLists g → SortedLists g' := by
  induction l with
  | nil =>
    intro g g' h hs
    simp only [collapseLoop, Except.ok.injEq] at h
    rw [← h]
    exact hs
  | cons e rest ih =>
    intro g g' h hs
    simp only [collapseLoop] at h
    cases hd : delEdge g e.value src with
    | error err =>
      rw [hd] at h
      exact Except.noConfusion h
    | ok p =>
      obtain ⟨w1, g1⟩ := p
      simp only [hd] at h
      cases ha1 : addEdge g1 e.value dst w1 1 with
      | error err =>
        rw [ha1] at h
        exact Except.noConfusion h
      | ok g2 =>
        simp only [ha1] at h
        cases ha2 : addEdge g2 dst e.value e.weight 1 with
        | error err =>
          rw [ha2] at h
          exact Except.noConfusion h
        | ok g3 =>
          simp only [ha2] at h
          exact ih g3 g' h
            (sortedLists_addEdge ha2
              (sortedLists_addEdge ha1 (sortedLists_delEdge hd hs)))

theorem sortedLists_collapse_ud {g g' : GraphAdj T} {src dst : T}
    (h : collapse g src dst = .ok g') (hs : SortedLists g) :
    SortedLists g' := by
  unfold collapse at h
  by_cases hsd : src = dst
  · simp [hsd] at h
  · simp only [if_neg hsd] at h
    cases hd : disconnect g src dst with
    | error e =>
      rw [hd] at h
      exact Except.noConfusion h
    | ok p =>
      obtain ⟨w0, g1⟩ := p
      simp only [hd] at h
      cases hfv : findVtx src g1.vertices_ with
      | none =>
        rw [hfv] at h
        exact Except.noConfusion h
      | some v =>
        simp only [hfv] at h
        cases hcl : collapseLoop src dst v.next g1 with
        | error e =>
          rw [hcl] at h
          exact Except.noConfusion h
        | ok g2 =>
          simp only [hcl] at h
          exact sortedLists_clearListE h
            (sortedLists_collapseLoop v.next g1 g2 hcl
              (sortedLists_disconnect_ud hd hs))

end UdGraphAdj

namespace GOp

open GraphAdj

variable {T : Type} [LinearOrder T]

theorem sortedLists_runDirOp {g g' : GraphAdj T} {op : GOp T}
    (h : runDirOp g op = .ok g') (hs : SortedLists g) : SortedLists g' := by
  cases op with
  | connect a b w d =>
    simp only [runDirOp] at h
    cases hc : GraphAdj.connect g a b w d with
    | error e =>
      rw [hc] at h
      exact Except.noConfusion h
    | ok p =>
      obtain ⟨fl, g1⟩ := p
      simp only [hc] at h
      have h1 := Except.ok.inj h
      rw [← h1]
      exact GraphAdj.sortedLists_connect hc hs
  | disconnect a b =>
    simp only [runDirOp] at h
    cases hc : GraphAdj.disconnect g a b with
    | error e =>
      rw [hc] at h
      exact Except.noConfusion h
    | ok p =>
      obtain ⟨w1, g1⟩ := p
      simp only [hc] at h
      have h1 := Except.ok.inj h
      rw [← h1]
      exact GraphAdj.sortedLists_delEdge hc hs
  | collapse a b =>
    simp only [runDirOp, Except.ok.injEq] at h
    rw [← h]
    exact hs

theorem sortedLists_runUdOp {g g' : GraphAdj T} {op : GOp T}
    (h : runUdOp g op = .ok g') (hs : SortedLists g) : SortedLists g' := by
  cases op with
  | connect a b w d =>
    simp only [runUdOp] at h
    cases hc : UdGraphAdj.connect g a b w d with
    | error e =>
      rw [hc] at h
      exact Except.noConfusion h
    | ok p =>
      obtain ⟨fl, g1⟩ := p
      simp only [hc] at h
      have h1 := Except.ok.inj h
      rw [← h1]
      exact UdGraphAdj.sortedLists_connect_ud hc hs
  | disconnect a b =>
    simp only [runUdOp] at h
    cases hc : UdGraphAdj.disconnect g a b with
    | error e =>
      rw [hc] at h
      exact Except.noConfusion h
    | ok p =>
      obtain ⟨w1, g1⟩ := p
      simp only [hc] at h
      have h1 := Except.ok.inj h
      rw [← h1]
      exact UdGraphAdj.sortedLists_disconnect_ud hc hs
  | collapse a b =>
    simp only [runUdOp] at h
    exact UdGraphAdj.sortedLists_collapse_ud h hs

theorem sortedLists_runDirOps {ops : List (GOp T)} :
    ∀ {g g' : GraphAdj T}, runDirOps g ops = .ok g' →
      SortedLists g → SortedLists g' := by
  induction ops with
  | nil =>
    intro g g' h hs
    simp only [runDirOps, Except.ok.injEq] at h
    rw [← h]
    exact hs
  | cons op rest ih =>
    intro g g' h hs
    simp only [runDirOps] at h
    cases ho : runDirOp g op with
    | error e =>
      rw [ho] at h
      exact Except.noConfusion h
    | ok g1 =>
      simp only [ho] at h
      exact ih h (sortedLists_runDirOp ho hs)

theorem sortedLists_runUdOps {ops : List (GOp T)} :
    ∀ {g g' : GraphAdj T}, runUdOps g ops = .ok g' →
      SortedLists g → SortedLists g' := by
  induction ops with
  | nil =>
    intro g g' h hs
    simp only [runUdOps, Except.ok.injEq] at h
    rw [← h]
    exact hs
  | cons op rest ih =>
    intro g g' h hs
    simp only [runUdOps] at h
    cases ho : runUdOp g op with
    | error e =>
      rw [ho] at h
      exact Except.noConfusion h
    | ok g1 =>
      simp only [ho] at h
      exact ih h (sortedLists_runUdOp ho hs)

end GOp

/-! ### Claim C4: sorted edge lists after any operation sequence -/

/-- C4: after any sequence of `connect`, `disconnect` and `collapse`
calls from a fresh graph — on either kind — every vertex's edge list is
strictly ascending by head value with no duplicate head values. -/
theorem claim_C4_sorted_lists {T : Type} [LinearOrder T]
    (ops : List (GOp T)) (g : GraphAdj T) :
    (GOp.runDirOps GraphAdj.emptyG ops = .ok g → GraphAdj.SortedLists g) ∧
    (GOp.runUdOps GraphAdj.emptyG ops = .ok g → GraphAdj.SortedLists g) :=
  ⟨fun h => GOp.sortedLists_runDirOps h (by intro v hv; simp [GraphAdj.emptyG] at hv),
   fun h => GOp.sortedLists_runUdOps h (by intro v hv; simp [GraphAdj.emptyG] at hv)⟩

/-- Witness for C4: a concrete call sequence whose result has strictly
sorted lists. -/
theorem claim_C4_witness :
    GOp.runDirOps GraphAdj.emptyG sortedOps = .ok sortedOpsResult ∧
    GraphAdj.SortedLists sortedOpsResult :=
  ⟨by decide, (claim_C4_sorted_lists sortedOps sortedOpsResult).1 (by decide)⟩

/-! ### Reversal: loop structure -/

namespace GraphAdj

variable {T : Type} [LinearOrder T]

theorem revLoopInner_eq (value : T) (l : List (Edge T)) (acc : GraphAdj T) :
    graph.revLoopInner value l acc =
      connectPairs acc (l.map (fun e => (e.value, value))) := by
  induction l generalizing acc with
  | nil => rfl
  | cons e rest ih =>
    simp only [graph.revLoopInner, List.map_cons, connectPairs]
    cases hc : connect acc e.value value 1 1 with
    | error err => rfl
    | ok q =>
      obtain ⟨fl, acc'⟩ := q
      exact ih acc'

theorem connectPairs_append (ps qs : List (T × T)) (g : GraphAdj T) :
    connectPairs g (ps ++ qs) =
      match connectPairs g ps with
      | .error e => .error e
      | .ok g' => connectPairs g' qs := by
  induction ps generalizing g with
  | nil => rfl
  | cons p rest ih =>
    simp only [List.cons_append, connectPairs]
    cases hc : connect g p.1 p.2 1 1 with
    | error err => rfl
    | ok q => exact ih q.2

theorem revLoopOuter_eq (vs : List (GraphAdjVertex T)) (acc : GraphAdj T) :
    graph.revLoopOuter vs acc = connectPairs acc (revPairs vs) := by
  induction vs generalizing acc with
  | nil => rfl
  | cons v rest ih =>
    simp only [graph.revLoopOuter, revPairs, connectPairs_append]
    rw [← revLoopInner_eq]
    cases hc : graph.revLoopInner v.value v.next acc with
    | error err => rfl
    | ok acc' => exact ih acc'

theorem reverseGraph_eq (g : GraphAdj T) :
    graph.reverseGraph g = connectPairs emptyG (revPairs g.vertices_) :=
  revLoopOuter_eq g.vertices_ emptyG

theorem edgeOf_emptyG (x y : T) : edgeOf (emptyG : GraphAdj T) x y = none :=
  rfl

theorem hasEdge_eq_isSome (g : GraphAdj T) (a b : T) :
    hasEdge g a b = (edgeOf g a b).isSome := by
  unfold hasEdge edgeOf
  exact any_eq_findEdge_isSome b (getList g a)

theorem isConnected_eq_isSome {g : GraphAdj T} {a b : T} (hab : a ≠ b) :
    isConnected g a b = (edgeOf g a b).isSome := by
  unfold isConnected edgeOf getList
  cases hf : findVtx a g.vertices_ with
  | none => simp [findEdge]
  | some v =>
    simp only [if_neg hab]
    exact any_eq_findEdge_isSome b v.next

theorem findEdge_mem {y : T} {l : List (Edge T)} {p : Int × Rat}
    (h : findEdge y l = some p) :
    ∃ e ∈ l, e.value = y ∧ p = (e.weight, e.distance) := by
  induction l with
  | nil => simp [findEdge] at h
  | cons e rest ih =>
    by_cases he : e.value = y
    · simp only [findEdge, if_pos he, Option.some.injEq] at h
      exact ⟨e, by simp, he, h.symm⟩
    · simp only [findEdge, if_neg he] at h
      obtain ⟨e', he', hv, hp⟩ := ih h
      exact ⟨e', by simp [he'], hv, hp⟩

theorem connect_edgeOf_spec {g : GraphAdj T} {a b : T} (hab : a ≠ b) :
    ∃ fl g', connect g a b 1 1 = .ok (fl, g') ∧
      ∀ x y, edgeOf g' x y =
        if x = a ∧ y = b ∧ edgeOf g a b = none then some (1, 1)
        else edgeOf g x y := by
  by_cases hc : isConnected g a b
  · refine ⟨false, g, by unfold connect; rw [if_pos hc], ?_⟩
    intro x y
    have hsome : (edgeOf g a b).isSome = true := by
      rw [← isConnected_eq_isSome hab, hc]
    rw [if_neg]
    rintro ⟨hx, hy, hn⟩
    rw [hn] at hsome
    simp at hsome
  · have hnone : edgeOf g a b = none := by
      cases hopt : edgeOf g a b with
      | none => rfl
      | some p =>
        exfalso
        apply hc
        rw [isConnected_eq_isSome hab, hopt]
        rfl
    cases ha : addEdge g a b 1 1 with
    | error e =>
      unfold addEdge at ha
      rw [if_neg hab] at ha
      exact Except.noConfusion ha
    | ok g1 =>
      have hcon : connect g a b 1 1 = .ok (true, g1) := by
        unfold connect
        rw [if_neg hc]
        split
        · rename_i e heq
          rw [ha] at heq
          exact Except.noConfusion heq
        · rename_i g2 heq
          rw [ha] at heq
          rw [Except.ok.inj heq]
      refine ⟨true, g1, hcon, ?_⟩
      intro x y
      by_cases hx : x = a
      · subst hx
        by_cases hy : y = b
        · subst hy
          rw [if_pos ⟨rfl, rfl, hnone⟩]
          unfold edgeOf
          rw [getList_addEdge_self ha]
          exact findEdge_insertEdgeAux_self hnone 1 1
        · rw [if_neg (by rintro ⟨h1, h2, h3⟩; exact hy h2)]
          unfold edgeOf
          rw [getList_addEdge_self ha]
          exact findEdge_insertEdgeAux_other hy 1 1 (getList g x)
      · rw [if_neg (by rintro ⟨h1, h2, h3⟩; exact hx h1)]
        unfold edgeOf
        rw [getList_addEdge_ne ha hx]

theorem connectPairs_spec (ps : List (T × T)) :
    ∀ (acc : GraphAdj T), (∀ p ∈ ps, p.1 ≠ p.2) →
    ∃ gf, connectPairs acc ps = .ok gf ∧
      ∀ x y, edgeOf gf x y =
        if (x, y) ∈ ps ∧ edgeOf acc x y = none then some (1, 1)
        else edgeOf acc x y := by
  induction ps with
  | nil =>
    intro acc hall
    refine ⟨acc, rfl, ?_⟩
    intro x y
    simp
  | cons p rest ih =>
    intro acc hall
    obtain ⟨a, b⟩ := p
    have hab : a ≠ b := hall (a, b) (by simp)
    obtain ⟨fl, g1, hc, hspec⟩ := connect_edgeOf_spec (g := acc) hab
    obtain ⟨gf, hcp, hspec2⟩ := ih g1 (fun q hq => hall q (by simp [hq]))
    refine ⟨gf, ?_, ?_⟩
    · simp only [connectPairs, hc]
      exact hcp
    · intro x y
      rw [hspec2 x y, hspec x y]
      by_cases hB : x = a ∧ y = b ∧ edgeOf acc a b = none
      · rw [if_pos hB]
        obtain ⟨hx, hy, hn⟩ := hB
        subst hx
        subst hy
        rw [if_neg (by rintro ⟨h1, h2⟩; exact Option.noConfusion h2)]
        rw [if_pos ⟨List.mem_cons_self _ _, hn⟩]
      · rw [if_neg hB]
        by_cases hC : (x, y) ∈ rest ∧ edgeOf acc x y = none
        · rw [if_pos hC, if_pos ⟨List.mem_cons_of_mem _ hC.1, hC.2⟩]
        · rw [if_neg hC, if_neg ?hne]
          case hne =>
            rintro ⟨hm, hn⟩
            rcases List.mem_cons.mp hm with heq | hmem
            · have hx : x = a := congrArg Prod.fst heq
              have hy : y = b := congrArg Prod.snd heq
              subst hx
              subst hy
              exact hB ⟨rfl, rfl, hn⟩
            · exact hC ⟨hmem, hn⟩

end GraphAdj

/-! ### Structural invariants of built graphs -/

namespace GraphAdj

variable {T : Type} [LinearOrder T]

theorem values_updateVtxFirst (t : T)
    (f : GraphAdjVertex T → GraphAdjVertex T)
    (vs : List (GraphAdjVertex T)) (hval : ∀ v, (f v).value = v.value) :
    (updateVtxFirst t f vs).map (fun v => v.value) =
      vs.map (fun v => v.value) := by
  induction vs with
  | nil => rfl
  | cons u rest ih =>
    by_cases hu : u.value = t
    · simp only [updateVtxFirst, if_pos hu, List.map_cons, hval]
    · simp only [updateVtxFirst, if_neg hu, List.map_cons, ih]

theorem findVtx_none_not_mem {t : T} {vs : List (GraphAdjVertex T)}
    (h : findVtx t vs = none) : t ∉ vs.map (fun v => v.value) := by
  induction vs with
  | nil => simp
  | cons u rest ih =>
    by_cases hu : u.value = t
    · simp [findVtx, if_pos hu] at h
    · simp only [findVtx, if_neg hu] at h
      simp only [List.map_cons, List.mem_cons]
      rintro (h1 | h1)
      · exact hu h1.symm
      · exact ih h h1

theorem nodupValues_ensureVtx {g : GraphAdj T} (t : T)
    (h : NodupValues g) : NodupValues (ensureVtx g t) := by
  unfold ensureVtx
  cases hf : findVtx t g.vertices_ with
  | some v => exact h
  | none =>
    unfold NodupValues at h ⊢
    rw [show (⟨g.vertices_ ++ [⟨t, false, []⟩]⟩ : GraphAdj T).vertices_ =
      g.vertices_ ++ [⟨t, false, []⟩] from rfl]
    rw [List.map_append]
    simp only [List.map_cons, List.map_nil]
    rw [List.nodup_append]
    refine ⟨h, by simp, ?_⟩
    intro x hx
    simp only [List.mem_singleton]
    intro hxt
    subst hxt
    exact findVtx_none_not_mem hf hx

theorem nodupValues_addEdge {g g' : GraphAdj T} {tail head : T} {w : Int}
    {d : Rat} (h : addEdge g tail head w d = .ok g')
    (hnd : NodupValues g) : NodupValues g' := by
  obtain ⟨hth, rfl⟩ := addEdge_ok_elim h
  unfold NodupValues
  rw [show (⟨updateVtxFirst tail
      (fun v => { v with next := insertEdgeAux head w d v.next })
      (ensureVtx (ensureVtx g tail) head).vertices_⟩ : GraphAdj T).vertices_ =
    updateVtxFirst tail
      (fun v => { v with next := insertEdgeAux head w d v.next })
      (ensureVtx (ensureVtx g tail) head).vertices_ from rfl]
  rw [values_updateVtxFirst tail
    (fun v => { v with next := insertEdgeAux head w d v.next }) _
    (fun v => rfl)]
  exact nodupValues_ensureVtx head (nodupValues_ensureVtx tail hnd)

theorem nodupValues_connect {g g' : GraphAdj T} {a b : T} {fl : Bool}
    (h : connect g a b 1 1 = .ok (fl, g')) (hnd : NodupValues g) :
    NodupValues g' := by
  unfold connect at h
  by_cases hc : isConnected g a b
  · rw [if_pos hc] at h
    have h1 := Except.ok.inj h
    injection h1 with h2 h3
    rw [← h3]
    exact hnd
  · rw [if_neg hc] at h
    split at h
    · exact Except.noConfusion h
    · rename_i g2 heq
      have h1 := Except.ok.inj h
      injection h1 with h2 h3
      rw [← h3]
      exact nodupValues_addEdge heq hnd

theorem nodupValues_connectPairs (ps : List (T × T)) :
    ∀ {acc gf : GraphAdj T}, connectPairs acc ps = .ok gf →
      NodupValues acc → NodupValues gf := by
  induction ps with
  | nil =>
    intro acc gf h hnd
    simp only [connectPairs, Except.ok.injEq] at h
    rw [← h]
    exact hnd
  | cons p rest ih =>
    intro acc gf h hnd
    simp only [connectPairs] at h
    cases hc : connect acc p.1 p.2 1 1 with
    | error e =>
      rw [hc] at h
      exact Except.noConfusion h
    | ok q =>
      obtain ⟨fl, g1⟩ := q
      simp only [hc] at h
      exact ih h (nodupValues_connect hc hnd)

theorem findVtx_of_mem_nodup {vs : List (GraphAdjVertex T)}
    {v : GraphAdjVertex T} (hnd : (vs.map (fun u => u.value)).Nodup)
    (hv : v ∈ vs) : findVtx v.value vs = some v := by
  induction vs with
  | nil => simp at hv
  | cons u rest ih =>
    simp only [List.map_cons, List.nodup_cons] at hnd
    rcases List.mem_cons.mp hv with h | h
    · subst h
      simp [findVtx]
    · have hne : ¬ u.value = v.value := by
        intro heq
        exact hnd.1 (heq ▸ List.mem_map_of_mem (fun x => x.value) h)
      simp only [findVtx, if_neg hne]
      exact ih hnd.2 h

theorem mem_revPairs {x y : T} {vs : List (GraphAdjVertex T)} :
    (x, y) ∈ revPairs vs ↔
      ∃ v ∈ vs, v.value = y ∧ ∃ e ∈ v.next, e.value = x := by
  induction vs with
  | nil => simp [revPairs]
  | cons v rest ih =>
    simp only [revPairs, List.mem_append, List.mem_map, ih, List.mem_cons]
    constructor
    · rintro (⟨e, he, heq⟩ | ⟨u, hu, huy, e, he, hex⟩)
      · have hx : e.value = x := congrArg Prod.fst heq
        have hy : v.value = y := congrArg Prod.snd heq
        exact ⟨v, Or.inl rfl, hy, e, he, hx⟩
      · exact ⟨u, Or.inr hu, huy, e, he, hex⟩
    · rintro ⟨u, hu | hu, huy, e, he, hex⟩
      · subst hu
        exact Or.inl ⟨e, he, by rw [hex, huy]⟩
      · exact Or.inr ⟨u, hu, huy, e, he, hex⟩

theorem revPairs_mem_iff_hasEdge {g : GraphAdj T} (hnd : NodupValues g)
    (x y : T) :
    (x, y) ∈ revPairs g.vertices_ ↔ hasEdge g y x = true := by
  constructor
  · intro h
    obtain ⟨v, hv, hvy, e, he, hex⟩ := mem_revPairs.mp h
    unfold hasEdge getList
    rw [← hvy, findVtx_of_mem_nodup hnd hv]
    rw [List.any_eq_true]
    exact ⟨e, he, by simp [hex]⟩
  · intro h
    unfold hasEdge getList at h
    cases hf : findVtx y g.vertices_ with
    | none => rw [hf] at h; simp at h
    | some v =>
      rw [hf] at h
      rw [List.any_eq_true] at h
      obtain ⟨e, he, hex⟩ := h
      rw [mem_revPairs]
      exact ⟨v, findVtx_mem hf, findVtx_sound hf, e, he, by simpa using hex⟩

theorem noSelfLoop_of_edgeOf {g : GraphAdj T} (hnd : NodupValues g)
    (h : ∀ x, edgeOf g x x = none) : NoSelfLoop g := by
  intro v hv e he heq
  have hhas : hasEdge g v.value v.value = true := by
    unfold hasEdge getList
    rw [findVtx_of_mem_nodup hnd hv, List.any_eq_true]
    exact ⟨e, he, by simp [heq]⟩
  rw [hasEdge_eq_isSome, h v.value] at hhas
  exact Bool.noConfusion hhas

theorem edgeOf_unit {g : GraphAdj T} (hu : UnitEdges g) (x y : T) :
    edgeOf g x y = none ∨ edgeOf g x y = some (1, 1) := by
  unfold edgeOf getList
  cases hf : findVtx x g.vertices_ with
  | none => exact Or.inl rfl
  | some v =>
    cases hfe : findEdge y v.next with
    | none => exact Or.inl rfl
    | some p =>
      obtain ⟨e, he, hv, hp⟩ := findEdge_mem hfe
      obtain ⟨hw, hd⟩ := hu v (findVtx_mem hf) e he
      rw [hp, hw, hd]
      exact Or.inr rfl

end GraphAdj

/-! ### Reversal specification -/

namespace GraphAdj

variable {T : Type} [LinearOrder T]

theorem not_hasEdge_self {g : GraphAdj T} (hsl : NoSelfLoop g) (x : T) :
    ¬ hasEdge g x x = true := by
  intro hh
  unfold hasEdge getList at hh
  cases hf : findVtx x g.vertices_ with
  | none =>
    rw [hf] at hh
    simp at hh
  | some v =>
    rw [hf] at hh
    rw [List.any_eq_true] at hh
    obtain ⟨e, he, hex⟩ := hh
    refine hsl v (findVtx_mem hf) e he ?_
    rw [findVtx_sound hf]
    simpa using hex

theorem reverseGraph_spec {g : GraphAdj T} (hsl : NoSelfLoop g) :
    ∃ gr, graph.reverseGraph g = .ok gr ∧
      ∀ x y, edgeOf gr x y =
        if (x, y) ∈ revPairs g.vertices_ then some (1, 1) else none := by
  have hps : ∀ p ∈ revPairs g.vertices_, p.1 ≠ p.2 := by
    intro p hp
    obtain ⟨x, y⟩ := p
    obtain ⟨v, hv, hvy, e, he, hex⟩ := mem_revPairs.mp hp
    simp only
    rw [← hex, ← hvy]
    exact hsl v hv e he
  obtain ⟨gf, hcp, hspec⟩ :=
    connectPairs_spec (revPairs g.vertices_) emptyG hps
  refine ⟨gf, by rw [reverseGraph_eq]; exact hcp, ?_⟩
  intro x y
  rw [hspec x y, edgeOf_emptyG]
  by_cases hm : (x, y) ∈ revPairs g.vertices_
  · rw [if_pos ⟨hm, rfl⟩, if_pos hm]
  · rw [if_neg (by rintro ⟨h1, h2⟩; exact hm h1), if_neg hm]

end GraphAdj

/-! ### Claim C6: graph reversal -/

/-- C6 (counterexample): reversal calls `connect` with its default
weight 1 and distance 1.0, so the edge 1->2 of weight 2 is reversed into
an edge 2->1 of weight 1, not 2; reversing twice yields the edge 1->2
with weight 1, so the round trip also fails for this graph. -/
theorem claim_C6_counterexample :
    GraphAdj.connect GraphAdj.emptyG (1 : Int) 2 2 1 = .ok (true, dirPairW2) ∧
    GraphAdj.edgeOf dirPairW2 1 2 = some (2, 1) ∧
    graph.reverseGraph dirPairW2 =
      .ok ⟨[⟨2, false, [⟨1, 1, 1⟩]⟩, ⟨1, false, []⟩]⟩ ∧
    GraphAdj.edgeOf (⟨[⟨2, false, [⟨1, 1, 1⟩]⟩, ⟨1, false, []⟩]⟩ :
      GraphAdj Int) 2 1 = some (1, 1) ∧
    graph.reverseGraph (⟨[⟨2, false, [⟨1, 1, 1⟩]⟩, ⟨1, false, []⟩]⟩ :
      GraphAdj Int) = .ok ⟨[⟨1, false, [⟨2, 1, 1⟩]⟩, ⟨2, false, []⟩]⟩ ∧
    GraphAdj.edgeOf (⟨[⟨1, false, [⟨2, 1, 1⟩]⟩, ⟨2, false, []⟩]⟩ :
      GraphAdj Int) 1 2 = some (1, 1) ∧
    some ((1 : Int), (1 : Rat)) ≠ some ((2 : Int), (1 : Rat)) := by decide

/-- C6 (amended): for a graph with pairwise-distinct vertex values and no
self-loops, reversal succeeds and maps every edge (a->b) to an edge
(b->a) carrying weight 1 and distance 1.0 — the `connect` defaults — no
matter the original weight and distance; consequently double reversal
reproduces the original edges exactly when all original edges already
carry weight 1 and distance 1.0 (as in any graph built purely from
default connects). -/
theorem claim_C6_amended {T : Type} [LinearOrder T] (g : GraphAdj T)
    (hnd : GraphAdj.NodupValues g) (hsl : GraphAdj.NoSelfLoop g) :
    ∃ gr, graph.reverseGraph g = .ok gr ∧
      (∀ a b, GraphAdj.edgeOf gr a b =
        if GraphAdj.hasEdge g b a = true then some (1, 1) else none) ∧
      (GraphAdj.UnitEdges g →
        ∃ grr, graph.reverseGraph gr = .ok grr ∧
          ∀ a b, GraphAdj.edgeOf grr a b = GraphAdj.edgeOf g a b) := by
  obtain ⟨gr, hrev, hspec⟩ := GraphAdj.reverseGraph_spec hsl
  have hgr_spec : ∀ a b, GraphAdj.edgeOf gr a b =
      if GraphAdj.hasEdge g b a = true then some (1, 1) else none := by
    intro a b
    rw [hspec a b]
    by_cases hm : (a, b) ∈ GraphAdj.revPairs g.vertices_
    · rw [if_pos hm,
        if_pos ((GraphAdj.revPairs_mem_iff_hasEdge hnd a b).mp hm)]
    · rw [if_neg hm,
        if_neg (fun hh => hm
          ((GraphAdj.revPairs_mem_iff_hasEdge hnd a b).mpr hh))]
  have hnd_gr : GraphAdj.NodupValues gr := by
    rw [GraphAdj.reverseGraph_eq] at hrev
    exact GraphAdj.nodupValues_connectPairs _ hrev
      (by simp [GraphAdj.NodupValues, GraphAdj.emptyG])
  have hsl_gr : GraphAdj.NoSelfLoop gr := by
    apply GraphAdj.noSelfLoop_of_edgeOf hnd_gr
    intro x
    rw [hgr_spec x x, if_neg (GraphAdj.not_hasEdge_self hsl x)]
  refine ⟨gr, hrev, hgr_spec, ?_⟩
  intro hu
  obtain ⟨grr, hrev2, hspec2⟩ := GraphAdj.reverseGraph_spec hsl_gr
  refine ⟨grr, hrev2, ?_⟩
  intro a b
  rw [hspec2 a b]
  have h1 : ((a, b) ∈ GraphAdj.revPairs gr.vertices_) ↔
      GraphAdj.hasEdge g a b = true := by
    rw [GraphAdj.revPairs_mem_iff_hasEdge hnd_gr]
    rw [GraphAdj.hasEdge_eq_isSome, hgr_spec b a]
    by_cases hh : GraphAdj.hasEdge g a b = true
    · rw [if_pos hh]
      simp [hh]
    · rw [if_neg hh]
      simp [hh]
  by_cases hh : GraphAdj.hasEdge g a b = true
  · rw [if_pos (h1.mpr hh)]
    rcases GraphAdj.edgeOf_unit hu a b with h2 | h2
    · exfalso
      rw [GraphAdj.hasEdge_eq_isSome, h2] at hh
      exact Bool.noConfusion hh
    · rw [h2]
  · rw [if_neg (fun hm => hh (h1.mp hm))]
    cases hopt : GraphAdj.edgeOf g a b with
    | none => rfl
    | some p =>
      exfalso
      apply hh
      rw [GraphAdj.hasEdge_eq_isSome, hopt]
      rfl

/-- Witness for C6 (amended) at the directed 1->2, 2->3, 1->3 graph
(distinct values, no self-loops, all edges with default attributes). -/
theorem claim_C6_witness :
    ∃ gr, graph.reverseGraph dirTriangle = .ok gr ∧
      (∀ a b, GraphAdj.edgeOf gr a b =
        if GraphAdj.hasEdge dirTriangle b a = true then some (1, 1)
        else none) ∧
      (GraphAdj.UnitEdges dirTriangle →
        ∃ grr, graph.reverseGraph gr = .ok grr ∧
          ∀ a b, GraphAdj.edgeOf grr a b =
            GraphAdj.edgeOf dirTriangle a b) :=
  claim_C6_amended dirTriangle (by unfold GraphAdj.NodupValues; decide)
    (by unfold GraphAdj.NoSelfLoop; decide)
